import Mathlib

/-!
# A verification development for `queue.c`

The program is a singly linked queue of C strings (`queue_t`, `list_ele_t`) with
head/tail insertion, head removal, size, in-place reversal and an in-place
recursive merge sort.

## Embedding

* A pointer is an address (`Ptr = Nat`); `NULL` is `Option.none`.
* The heap of list elements is a map from addresses to nodes.  An address that
  is not mapped is not a live `list_ele_t` (never allocated, or freed).
  Dereferencing such an address, or `NULL`, is undefined behaviour; the
  operations that dereference return `Option`, with `none` standing for
  undefined behaviour (or for exhausted fuel, in loops and recursion).
* A C string is the list of its bytes before the terminating NUL.
* `malloc` is an oracle: every call site receives the answer of the allocator
  as an argument.  The counters `mallocs` / `frees` count the blocks handed out
  and the blocks released.
* `int size` is a mathematical integer: the count is taken to stay below
  `INT_MAX` (signed overflow is undefined in C and is not modelled).  `size_t`
  arithmetic wraps modulo `2^64`.
* Loops and recursive functions take a fuel argument.
-/

namespace Queue

/-! ## Data model -/

/-- Addresses of heap blocks. -/
abbrev Ptr := Nat

/-- The C struct `list_ele_t`: a string value and the successor link. -/
structure list_ele_t where
  value : List Nat
  next : Option Ptr
deriving DecidableEq, Repr

/-- The C struct `queue_t`: head link, tail link and element count. -/
structure queue_t where
  head : Option Ptr
  tail : Option Ptr
  size : Int
deriving DecidableEq, Repr

/-- The live list elements, by address. -/
abbrev Heap := Ptr → Option list_ele_t

/-- Memory: the live list elements and the allocator's counters. -/
structure Mem where
  nodes : Heap
  mallocs : Nat
  frees : Nat

/-- Caller memory around a `char *`: the byte at each offset from the pointer. -/
abbrev Buf := Int → Nat

/-- Number of values of `size_t`. -/
def SIZE_MOD : Nat := 2 ^ 64

/-! ## C library functions -/

/-- Length of a C string. -/
def strlen (s : List Nat) : Nat := s.length

/-- Sign of `strcmp`: bytes are compared as unsigned values, and the terminating
NUL of the shorter string is smaller than every byte of a string. -/
def strcmp : List Nat → List Nat → Int
  | [], [] => 0
  | [], _ :: _ => -1
  | _ :: _, [] => 1
  | a :: as, b :: bs => if a < b then -1 else if b < a then 1 else strcmp as bs

/-- Memory after `strncpy(dst, src, n)`: exactly `n` bytes are written at
offsets `0 .. n-1`, the bytes of `src` first and NUL bytes after them. -/
def strncpy (dst : Buf) (src : List Nat) (n : Nat) : Buf :=
  fun i => if 0 ≤ i ∧ i < (n : Int) then src.getD i.toNat 0 else dst i

/-- Memory after the byte store `*(p + off) = b`. -/
def store (dst : Buf) (off : Int) (b : Nat) : Buf :=
  fun i => if i = off then b else dst i

/-- Content of a freshly allocated block before it is written. -/
def uninit : Buf := fun _ => 170

/-- The C string found in a block of `cap` bytes: the bytes before the first NUL. -/
def readStr (b : Buf) (cap : Nat) : List Nat :=
  ((List.range cap).map (fun (i : Nat) => b (i : Int))).takeWhile (fun c => c != 0)

/-- The string held by the block `malloc(strlen(s) + 1)` after
`strncpy(block, s, strlen(s) + 1)`. -/
def copy_string (s : List Nat) : List Nat :=
  readStr (strncpy uninit s (strlen s + 1)) (strlen s + 1)

/-! ## The queue operations -/

/-- Model of `q_new`; `alloc` says whether `malloc` succeeded. -/
def q_new (m : Mem) (alloc : Bool) : Mem × Option queue_t :=
  if alloc then
    ({ m with mallocs := m.mallocs + 1 }, some { head := none, tail := none, size := 0 })
  else
    (m, none)

/-- Model of `q_insert_head`.  `newh` is the answer of the first `malloc`
(`none` for `NULL`), `strAlloc` says whether the second `malloc` succeeded. -/
def q_insert_head (m : Mem) (q : Option queue_t) (s : Option (List Nat))
    (newh : Option Ptr) (strAlloc : Bool) : Mem × Option queue_t × Bool :=
  match q, s with
  | none, _ => (m, q, false)
  | some _, none => (m, q, false)
  | some qv, some sv =>
    match newh with
    | none => (m, q, false)
    | some nh =>
      if strAlloc = false then
        ({ m with mallocs := m.mallocs + 1, frees := m.frees + 1 }, q, false)
      else
        let nodes := Function.update m.nodes nh
          (some { value := copy_string sv, next := qv.head })
        let q1 : queue_t := { qv with head := some nh }
        let q2 : queue_t := if q1.size = 0 then { q1 with tail := some nh } else q1
        ({ m with nodes := nodes, mallocs := m.mallocs + 2 },
          some { q2 with size := q2.size + 1 }, true)

/-- Model of `q_insert_tail`, with the same allocator answers as `q_insert_head`. -/
def q_insert_tail (m : Mem) (q : Option queue_t) (s : Option (List Nat))
    (newh : Option Ptr) (strAlloc : Bool) : Option (Mem × Option queue_t × Bool) :=
  match q, s with
  | none, _ => some (m, q, false)
  | some _, none => some (m, q, false)
  | some qv, some sv =>
    match newh with
    | none => some (m, q, false)
    | some nh =>
      if strAlloc = false then
        some ({ m with mallocs := m.mallocs + 1, frees := m.frees + 1 }, q, false)
      else
        let nodes := Function.update m.nodes nh
          (some { value := copy_string sv, next := none })
        if qv.size = 0 then
          some ({ m with nodes := nodes, mallocs := m.mallocs + 2 },
            some { head := some nh, tail := some nh, size := qv.size + 1 }, true)
        else
          match qv.tail with
          | none => none
          | some t =>
            match nodes t with
            | none => none
            | some tn =>
              some ({ m with
                      nodes := Function.update nodes t (some { tn with next := some nh }),
                      mallocs := m.mallocs + 2 },
                some { qv with tail := some nh, size := qv.size + 1 }, true)

/-- Model of `q_remove_head`.  `sp` is the caller's buffer (`none` for `NULL`);
the result carries the buffer after the call. -/
def q_remove_head (m : Mem) (q : Option queue_t) (sp : Option Buf) (bufsize : Nat) :
    Option (Mem × Option queue_t × Option Buf × Bool) :=
  match q with
  | none => some (m, q, sp, false)
  | some qv =>
    match qv.head with
    | none => some (m, q, sp, false)
    | some old_head =>
      match m.nodes old_head with
      | none => none
      | some nd =>
        let q1 : queue_t := { qv with head := nd.next, size := qv.size - 1 }
        let sp1 := sp.map (fun b =>
          store (strncpy b nd.value ((bufsize + SIZE_MOD - 1) % SIZE_MOD))
            ((bufsize : Int) - 1) 0)
        some ({ m with nodes := Function.update m.nodes old_head none,
                       frees := m.frees + 2 },
          some q1, sp1, true)

/-- Model of `q_size`. -/
def q_size (q : Option queue_t) : Int :=
  match q with
  | none => 0
  | some qv => qv.size

/-- The loop of `q_reverse`: `while (q->head->next != NULL) { ... }`, run on
the locals `q->head` and `prev`.  Returns the heap, `q->head` and `prev` at
loop exit. -/
def q_reverse_loop : Nat → Heap → Option Ptr → Option Ptr →
    Option (Heap × Ptr × Option Ptr)
  | 0, _, _, _ => none
  | fuel + 1, h, head, prev =>
    match head with
    | none => none
    | some hd =>
      match h hd with
      | none => none
      | some hn =>
        match hn.next with
        | none => some (h, hd, prev)
        | some next =>
          q_reverse_loop fuel (Function.update h hd (some { hn with next := prev }))
            (some next) (some hd)

/-- Model of `q_reverse`. -/
def q_reverse (fuel : Nat) (m : Mem) (q : Option queue_t) : Option (Mem × Option queue_t) :=
  match q with
  | none => some (m, q)
  | some qv =>
    match qv.head with
    | none => some (m, q)
    | some _ =>
      match q_reverse_loop fuel m.nodes qv.head none with
      | none => none
      | some (h, hd, prev) =>
        match h hd with
        | none => none
        | some hn =>
          some ({ m with nodes := Function.update h hd (some { hn with next := prev }) },
            some { qv with head := some hd, tail := qv.head })

/-- Model of `list_merge`; the result is the heap after the call and the
returned pointer. -/
def list_merge : Nat → Heap → Option Ptr → Option Ptr → Option (Heap × Option Ptr)
  | 0, _, _, _ => none
  | fuel + 1, h, left, right =>
    match left, right with
    | none, _ => some (h, right)
    | some _, none => some (h, left)
    | some l, some r =>
      match h l, h r with
      | some ln, some rn =>
        if strcmp ln.value rn.value < 0 then
          match list_merge fuel h ln.next right with
          | none => none
          | some (h1, res) =>
            match h1 l with
            | none => none
            | some ln1 => some (Function.update h1 l (some { ln1 with next := res }), left)
        else
          match list_merge fuel h left rn.next with
          | none => none
          | some (h1, res) =>
            match h1 r with
            | none => none
            | some rn1 => some (Function.update h1 r (some { rn1 with next := res }), right)
      | _, _ => none

/-- The scan of `list_mergesort`: `while (fast && fast->next) { slow = slow->next;
fast = fast->next->next; }`.  Returns `slow` at loop exit. -/
def split_loop : Nat → Heap → Option Ptr → Option Ptr → Option (Option Ptr)
  | 0, _, _, _ => none
  | fuel + 1, h, slow, fast =>
    match fast with
    | none => some slow
    | some f =>
      match h f with
      | none => none
      | some fn =>
        match fn.next with
        | none => some slow
        | some f1 =>
          match slow with
          | none => none
          | some s =>
            match h s, h f1 with
            | some sn, some fn1 => split_loop fuel h sn.next fn1.next
            | _, _ => none

/-- Model of `list_mergesort`. -/
def list_mergesort : Nat → Heap → Option Ptr → Option (Heap × Option Ptr)
  | 0, _, _ => none
  | fuel + 1, h, head =>
    match head with
    | none => some (h, head)
    | some hd =>
      match h hd with
      | none => none
      | some hn =>
        match hn.next with
        | none => some (h, head)
        | some _ =>
          match split_loop fuel h head hn.next with
          | none => none
          | some none => none
          | some (some slow) =>
            match h slow with
            | none => none
            | some sn =>
              let fast := sn.next
              let h1 := Function.update h slow (some { sn with next := none })
              match list_mergesort fuel h1 head with
              | none => none
              | some (h2, l) =>
                match list_mergesort fuel h2 fast with
                | none => none
                | some (h3, r) => list_merge fuel h3 l r

/-- The walk of `q_sort`: `while (tmp->next != NULL) tmp = tmp->next;`.
Returns `tmp` at loop exit. -/
def tail_walk : Nat → Heap → Option Ptr → Option Ptr
  | 0, _, _ => none
  | fuel + 1, h, tmp =>
    match tmp with
    | none => none
    | some t =>
      match h t with
      | none => none
      | some tn =>
        match tn.next with
        | none => some t
        | some _ => tail_walk fuel h tn.next

/-- Model of `q_sort`. -/
def q_sort (fuel : Nat) (m : Mem) (q : Option queue_t) : Option (Mem × Option queue_t) :=
  match q with
  | none => some (m, q)
  | some qv =>
    match qv.head with
    | none => some (m, q)
    | some _ =>
      match list_mergesort fuel m.nodes qv.head with
      | none => none
      | some (h, hd) =>
        match tail_walk fuel h hd with
        | none => none
        | some tmp => some ({ m with nodes := h }, some { qv with head := hd, tail := some tmp })

/-! ## Reading a queue -/

/-- The chain of nodes that starts at `p` and ends at `NULL` is exactly `ps`. -/
def IsList (h : Heap) : Option Ptr → List Ptr → Prop
  | p, [] => p = none
  | p, a :: as => p = some a ∧ ∃ nd, h a = some nd ∧ IsList h nd.next as

/-- The string stored in the node at `p` (empty when `p` is not live). -/
def valueAt (h : Heap) (p : Ptr) : List Nat :=
  match h p with
  | some nd => nd.value
  | none => []

/-- The successor link of the node at `p` (absent when `p` is not live). -/
def nextAt (h : Heap) (p : Ptr) : Option Ptr :=
  match h p with
  | some nd => nd.next
  | none => none

/-- The strings of a sequence of nodes. -/
def values (h : Heap) (ps : List Ptr) : List (List Nat) := ps.map (valueAt h)

/-- The chain read from `p` by following at most `fuel` successor links:
`some ps` when `NULL` is reached, `none` when a dead node is met or the fuel
runs out. -/
def readList : Nat → Heap → Option Ptr → Option (List Ptr)
  | _, _, none => some []
  | 0, _, some _ => none
  | fuel + 1, h, some a =>
    match h a with
    | none => none
    | some nd => (readList fuel h nd.next).map (fun as => a :: as)

/-- Non-decreasing `strcmp` order of a sequence of strings. -/
def SortedStr (l : List (List Nat)) : Prop := l.Pairwise (fun a b => strcmp a b ≤ 0)

/-- The order in which `list_merge` links the nodes of two chains `ls` and `rs`
whose strings are given by `v`: the head of `ls` goes first when it compares
below the head of `rs`, the head of `rs` otherwise. -/
def mergeP (v : Ptr → List Nat) : List Ptr → List Ptr → List Ptr
  | [], rs => rs
  | a :: as, [] => a :: as
  | a :: as, b :: bs =>
    if strcmp (v a) (v b) < 0 then a :: mergeP v as (b :: bs)
    else b :: mergeP v (a :: as) bs

/-- Two heaps have the same live addresses and the same string at each of them. -/
def SameValues (h2 h : Heap) : Prop :=
  ∀ x, (h2 x).map (fun nd => nd.value) = (h x).map (fun nd => nd.value)

/-- Well-formed queue whose node sequence is `ps`: the chain from `head` is
`ps`, `size` is its length and, when the queue is not empty, `tail` is its
last node. -/
def WF (m : Mem) (q : queue_t) (ps : List Ptr) : Prop :=
  IsList m.nodes q.head ps ∧ q.size = (ps.length : Int) ∧
    (ps ≠ [] → q.tail = ps.getLast?)

/-! ## Sequences of operations -/

/-- The queues that the public operations can produce from `q_new`.  The
allocator never hands out the address of a live node, and loops are given any
amount of fuel with which they finish. -/
inductive Reachable : Mem → queue_t → Prop
  | new (m : Mem) (q : queue_t) :
      (q_new m true).2 = some q → Reachable (q_new m true).1 q
  | insert_head {m : Mem} {q : queue_t} (s : Option (List Nat)) (newh : Option Ptr)
      (strAlloc : Bool) (m2 : Mem) (q2 : queue_t) (b : Bool) :
      Reachable m q → (∀ nh, newh = some nh → m.nodes nh = none) →
      q_insert_head m (some q) s newh strAlloc = (m2, some q2, b) → Reachable m2 q2
  | insert_tail {m : Mem} {q : queue_t} (s : Option (List Nat)) (newh : Option Ptr)
      (strAlloc : Bool) (m2 : Mem) (q2 : queue_t) (b : Bool) :
      Reachable m q → (∀ nh, newh = some nh → m.nodes nh = none) →
      q_insert_tail m (some q) s newh strAlloc = some (m2, some q2, b) → Reachable m2 q2
  | remove_head {m : Mem} {q : queue_t} (sp : Option Buf) (bufsize : Nat)
      (m2 : Mem) (q2 : queue_t) (sp2 : Option Buf) (b : Bool) :
      Reachable m q →
      q_remove_head m (some q) sp bufsize = some (m2, some q2, sp2, b) → Reachable m2 q2
  | reverse {m : Mem} {q : queue_t} (fuel : Nat) (m2 : Mem) (q2 : queue_t) :
      Reachable m q → q_reverse fuel m (some q) = some (m2, some q2) → Reachable m2 q2
  | sort {m : Mem} {q : queue_t} (fuel : Nat) (m2 : Mem) (q2 : queue_t) :
      Reachable m q → q_sort fuel m (some q) = some (m2, some q2) → Reachable m2 q2

/-- Successive successful calls `q_insert_tail(q, s)`, one for each pair of a
string and the address that `malloc` returns for its node. -/
def insert_tail_all : Mem → Option queue_t → List (List Nat × Ptr) →
    Option (Mem × Option queue_t)
  | m, q, [] => some (m, q)
  | m, q, (s, nh) :: rest =>
    match q_insert_tail m q (some s) (some nh) true with
    | some (m2, q2, true) => insert_tail_all m2 q2 rest
    | _ => none

/-- Run `n` calls `q_remove_head(q, buf, bufsize)`, each on a fresh buffer, and
collect the string found in the buffer after each call. -/
def remove_n : Nat → Mem → Option queue_t → Nat → Option (List (List Nat))
  | 0, _, _, _ => some []
  | n + 1, m, q, bufsize =>
    match q_remove_head m q (some uninit) bufsize with
    | some (m2, q2, some b, true) =>
      (remove_n n m2 q2 bufsize).map (fun out => readStr b bufsize :: out)
    | _ => none

/-- The loop of `q_free`: `while (q->head != NULL) { old_head = q->head;
q->head = q->head->next; free(old_head->value); free(old_head); }`, run on
`q->head`.  Returns the memory at loop exit. -/
def q_free_loop : Nat → Mem → Option Ptr → Option Mem
  | 0, _, _ => none
  | fuel + 1, m, head =>
    match head with
    | none => some m
    | some old_head =>
      match m.nodes old_head with
      | none => none
      | some nd =>
        q_free_loop fuel
          { m with nodes := Function.update m.nodes old_head none, frees := m.frees + 2 }
          nd.next

/-- Model of `q_free`: the memory after the call (the queue block is released
last). -/
def q_free (fuel : Nat) (m : Mem) (q : Option queue_t) : Option Mem :=
  match q with
  | none => some m
  | some qv =>
    match q_free_loop fuel m qv.head with
    | none => none
    | some m2 => some { m2 with frees := m2.frees + 1 }

/-- The split of `list_mergesort`, on a list of at least two nodes: the scan,
then `fast = slow->next; slow->next = NULL;`.  Returns the heap after the cut
and `fast`, the head of the right half; the left half still starts at `head`. -/
def split_step (fuel : Nat) (h : Heap) (head : Option Ptr) : Option (Heap × Option Ptr) :=
  match head with
  | none => none
  | some hd =>
    match h hd with
    | none => none
    | some hn =>
      match split_loop fuel h head hn.next with
      | none => none
      | some none => none
      | some (some slow) =>
        match h slow with
        | none => none
        | some sn => some (Function.update h slow (some { sn with next := none }), sn.next)

/-- One call of `q_insert_head` or `q_insert_tail` with the answers of the
allocator; either allocation may fail and the string may be absent. -/
structure Ins where
  atHead : Bool
  s : Option (List Nat)
  newh : Option Ptr
  strAlloc : Bool

/-- The call of an insert: memory and queue after it, and its return value. -/
def ins_step (m : Mem) (q : Option queue_t) (i : Ins) : Option (Mem × Option queue_t × Bool) :=
  if i.atHead then some (q_insert_head m q i.s i.newh i.strAlloc)
  else q_insert_tail m q i.s i.newh i.strAlloc

/-- Run a sequence of inserts, whatever they return. -/
def run_inserts : Mem → Option queue_t → List Ins → Option (Mem × Option queue_t)
  | m, q, [] => some (m, q)
  | m, q, i :: rest =>
    match ins_step m q i with
    | none => none
    | some (m2, q2, _) => run_inserts m2 q2 rest

/-- The node addresses that the allocator hands out along a run of inserts are
not live at the time of the call. -/
def InsFresh : Mem → Option queue_t → List Ins → Prop
  | _, _, [] => True
  | m, q, i :: rest =>
    (∀ nh, i.newh = some nh → m.nodes nh = none) ∧
      ∀ m2 q2 b, ins_step m q i = some (m2, q2, b) → InsFresh m2 q2 rest

/-- Memory with no live node. -/
def emptyMem : Mem := { nodes := fun _ => none, mallocs := 0, frees := 0 }

/-- The string "banana". -/
def banana : List Nat := [98, 97, 110, 97, 110, 97]

/-- The string "apple". -/
def apple : List Nat := [97, 112, 112, 108, 101]

/-- The string "cherry". -/
def cherry : List Nat := [99, 104, 101, 114, 114, 121]

/-- The queue after `q_new` and tail-inserts of "banana", "apple", "cherry" at
the addresses 1, 2, 3. -/
def fruits : Mem × queue_t :=
  match insert_tail_all (q_new emptyMem true).1 (q_new emptyMem true).2
      [(banana, 1), (apple, 2), (cherry, 3)] with
  | some (m, some q) => (m, q)
  | _ => (emptyMem, { head := none, tail := none, size := 0 })

/-- The queue after `q_new` and tail-inserts of "a", "b", "c" at the addresses
1, 2, 3. -/
def abc : Mem × queue_t :=
  match insert_tail_all (q_new emptyMem true).1 (q_new emptyMem true).2
      [([97], 1), ([98], 2), ([99], 3)] with
  | some (m, some q) => (m, q)
  | _ => (emptyMem, { head := none, tail := none, size := 0 })

/-- The queue after `q_new`, one insert of "a" at address 1 and one
`q_remove_head`: a queue that was emptied. -/
def emptied : Mem × queue_t :=
  match q_remove_head (q_insert_head (q_new emptyMem true).1 (q_new emptyMem true).2
      (some [97]) (some 1) true).1 (q_insert_head (q_new emptyMem true).1
      (q_new emptyMem true).2 (some [97]) (some 1) true).2.1 none 0 with
  | some (m, some q, _, _) => (m, q)
  | _ => (emptyMem, { head := none, tail := none, size := 0 })

/-- The queue after `q_new` and one insert of "a" at address 1. -/
def single : Mem × queue_t :=
  match q_insert_head (q_new emptyMem true).1 (q_new emptyMem true).2 (some [97]) (some 1)
      true with
  | (m, some q, _) => (m, q)
  | _ => (emptyMem, { head := none, tail := none, size := 0 })

/-- Two one-node lists, at the addresses 1 and 2, that both hold the string "a". -/
def tieHeap : Heap := fun p =>
  if p = 1 then some { value := [97], next := none }
  else if p = 2 then some { value := [97], next := none }
  else none

/-- Two sorted chains: 1 ("a") then 3 ("c"), and 2 ("b") then 4 ("d"). -/
def mergeHeap : Heap := fun p =>
  if p = 1 then some { value := [97], next := some 3 }
  else if p = 2 then some { value := [98], next := some 4 }
  else if p = 3 then some { value := [99], next := none }
  else if p = 4 then some { value := [100], next := none }
  else none

/-! # Theorems -/

/-! ## Strings -/

theorem strcmp_self (a : List Nat) : strcmp a a = 0 := by
  induction a with
  | nil => rfl
  | cons x xs ih => simp [strcmp, ih]

theorem strcmp_total : ∀ (a b : List Nat), ¬ strcmp a b < 0 → strcmp b a ≤ 0
  | [], [] => by simp [strcmp]
  | [], _ :: _ => by simp [strcmp]
  | _ :: _, [] => by simp [strcmp]
  | a :: as, b :: bs => by
    have ih := strcmp_total as bs
    simp only [strcmp]
    by_cases h1 : a < b
    · simp [h1]
    · by_cases h2 : b < a
      · simp [h1, h2]
      · simpa [h1, h2] using ih

theorem strcmp_trans : ∀ (a b c : List Nat),
    strcmp a b ≤ 0 → strcmp b c ≤ 0 → strcmp a c ≤ 0
  | [], _, [] => by simp [strcmp]
  | [], _, _ :: _ => by simp [strcmp]
  | _ :: _, [], _ => by simp [strcmp]
  | _ :: _, _ :: _, [] => by simp [strcmp]
  | a :: as, b :: bs, c :: cs => by
    have ih := strcmp_trans as bs cs
    simp only [strcmp]
    intro h1 h2
    by_cases hab : a < b
    · have hac : a < c := by
        by_cases hbc : b < c
        · omega
        · by_cases hcb : c < b
          · simp [hbc, hcb] at h2
          · omega
      simp [hac]
    · by_cases hba : b < a
      · simp [hab, hba] at h1
      · have heq : a = b := by omega
        subst heq
        by_cases hbc : a < c
        · simp [hbc]
        · by_cases hcb : c < a
          · simp [hbc, hcb] at h2
          · simp only [hab, hba, hbc, hcb, if_false] at h1 h2 ⊢
            exact ih h1 h2

theorem lex_cons_iff (x y : Nat) (xs ys : List Nat) :
    List.Lex (fun a b : Nat => a < b) (x :: xs) (y :: ys) ↔
      x < y ∨ (x = y ∧ List.Lex (fun a b : Nat => a < b) xs ys) := by
  constructor
  · intro h
    cases h with
    | cons h => exact Or.inr ⟨rfl, h⟩
    | rel h => exact Or.inl h
  · rintro (h | ⟨rfl, h⟩)
    · exact List.Lex.rel h
    · exact List.Lex.cons h

theorem strcmp_neg_iff_lex : ∀ (a b : List Nat),
    strcmp a b < 0 ↔ List.Lex (fun x y : Nat => x < y) a b
  | [], [] => by simp [strcmp]
  | [], _ :: _ => by simp [strcmp, List.Lex.nil]
  | _ :: _, [] => by simp [strcmp]
  | x :: xs, y :: ys => by
    have ih := strcmp_neg_iff_lex xs ys
    rw [lex_cons_iff]
    simp only [strcmp]
    by_cases h1 : x < y
    · simp [h1]
    · by_cases h2 : y < x
      · have : ¬ (x = y) := by omega
        simp [h1, h2, this]
      · have : x = y := by omega
        subst this
        simp [ih]

theorem strcmp_pos_iff_lex : ∀ (a b : List Nat),
    0 < strcmp a b ↔ List.Lex (fun x y : Nat => x < y) b a
  | [], [] => by simp [strcmp]
  | [], _ :: _ => by simp [strcmp]
  | _ :: _, [] => by simp [strcmp, List.Lex.nil]
  | x :: xs, y :: ys => by
    have ih := strcmp_pos_iff_lex xs ys
    rw [lex_cons_iff]
    simp only [strcmp]
    by_cases h1 : x < y
    · have : ¬ (y = x) := by omega
      have h3 : ¬ (y < x) := by omega
      simp [h1, this, h3]
    · by_cases h2 : y < x
      · simp [h1, h2]
      · have : x = y := by omega
        subst this
        simp [ih]

theorem strcmp_nonpos_iff_lex (a b : List Nat) :
    strcmp a b ≤ 0 ↔ ¬ List.Lex (fun x y : Nat => x < y) b a := by
  rw [← strcmp_pos_iff_lex]
  omega

theorem range_map_getD (s : List Nat) :
    (List.range (s.length + 1)).map (fun i => s.getD i 0) = s ++ [0] := by
  apply List.ext_getElem
  · simp
  · intro i h1 h2
    simp only [List.getElem_map, List.getElem_range]
    by_cases hi : i < s.length
    · rw [List.getElem_append_left hi, List.getD_eq_getElem _ _ hi]
    · have : i = s.length := by simp at h1; omega
      subst this
      simp [List.getD_eq_default]

theorem copy_string_eq (s : List Nat) (hs : ∀ b ∈ s, b ≠ 0) : copy_string s = s := by
  unfold copy_string readStr strlen
  have h1 : (List.range (s.length + 1)).map
      (fun (i : Nat) => strncpy uninit s (s.length + 1) (i : Int)) =
      (List.range (s.length + 1)).map (fun i => s.getD i 0) := by
    apply List.map_congr_left
    intro i hi
    have hi2 : i < s.length + 1 := List.mem_range.mp hi
    simp only [strncpy]
    have : (0 : Int) ≤ (i : Int) ∧ (i : Int) < ((s.length + 1 : Nat) : Int) := by
      constructor <;> omega
    rw [if_pos this]
    simp
  rw [h1, range_map_getD]
  rw [List.takeWhile_append_of_pos]
  · simp
  · intro b hb
    simpa using hs b hb

/-! ## Chains -/

theorem isList_nil {h : Heap} {p : Option Ptr} : IsList h p [] ↔ p = none := Iff.rfl

theorem isList_cons {h : Heap} {p : Option Ptr} {a : Ptr} {as : List Ptr} :
    IsList h p (a :: as) ↔ p = some a ∧ ∃ nd, h a = some nd ∧ IsList h nd.next as :=
  Iff.rfl

theorem isList_none {h : Heap} {ps : List Ptr} (hl : IsList h none ps) : ps = [] := by
  cases ps with
  | nil => rfl
  | cons a as => exact absurd hl.1 (by simp)

theorem isList_some {h : Heap} {a : Ptr} {ps : List Ptr} (hl : IsList h (some a) ps) :
    ∃ nd as, ps = a :: as ∧ h a = some nd ∧ IsList h nd.next as := by
  cases ps with
  | nil => exact absurd hl (by simp [IsList])
  | cons b bs =>
    obtain ⟨h1, nd, h2, h3⟩ := hl
    cases h1
    exact ⟨nd, bs, rfl, h2, h3⟩

theorem isList_functional {h : Heap} : ∀ {l1 l2 : List Ptr} {p : Option Ptr},
    IsList h p l1 → IsList h p l2 → l1 = l2
  | [], l2, p, h1, h2 => by
    have : p = none := h1
    subst this
    exact (isList_none h2).symm
  | a :: as, l2, p, h1, h2 => by
    obtain ⟨hp, nd, hnd, hrest⟩ := h1
    subst hp
    obtain ⟨nd2, bs, rfl, hnd2, hrest2⟩ := isList_some h2
    rw [hnd] at hnd2
    cases hnd2
    rw [isList_functional hrest hrest2]

theorem isList_drop {h : Heap} : ∀ {xs : List Ptr} {p : Option Ptr} {a : Ptr} {ys : List Ptr},
    IsList h p (xs ++ a :: ys) → IsList h (some a) (a :: ys)
  | [], p, a, ys, hl => by
    obtain ⟨_, nd, hnd, hrest⟩ := hl
    exact ⟨rfl, nd, hnd, hrest⟩
  | x :: xs, p, a, ys, hl => by
    obtain ⟨_, nd, _, hrest⟩ := hl
    exact isList_drop hrest

theorem isList_nodup {h : Heap} : ∀ {ps : List Ptr} {p : Option Ptr},
    IsList h p ps → ps.Nodup
  | [], _, _ => List.nodup_nil
  | a :: as, p, hl => by
    obtain ⟨hp, nd, hnd, hrest⟩ := hl
    refine List.nodup_cons.mpr ⟨?_, isList_nodup hrest⟩
    intro hmem
    obtain ⟨xs, ys, hsplit⟩ := List.append_of_mem hmem
    rw [hsplit] at hrest
    have h1 : IsList h (some a) (a :: ys) := isList_drop hrest
    have h2 : IsList h (some a) (a :: (xs ++ a :: ys)) := ⟨rfl, nd, hnd, hrest⟩
    have := congrArg List.length (isList_functional h1 h2)
    simp at this
    omega

theorem isList_live {h : Heap} : ∀ {ps : List Ptr} {p : Option Ptr} {x : Ptr},
    IsList h p ps → x ∈ ps → ∃ nd, h x = some nd
  | [], _, _, _, hx => absurd hx (List.not_mem_nil _)
  | a :: as, p, x, hl, hx => by
    obtain ⟨_, nd, hnd, hrest⟩ := hl
    rcases List.mem_cons.mp hx with rfl | hx
    · exact ⟨nd, hnd⟩
    · exact isList_live hrest hx

theorem isList_frame {h h2 : Heap} : ∀ {ps : List Ptr} {p : Option Ptr},
    (∀ x ∈ ps, h2 x = h x) → IsList h p ps → IsList h2 p ps
  | [], _, _, hl => hl
  | a :: as, p, hf, hl => by
    obtain ⟨hp, nd, hnd, hrest⟩ := hl
    refine ⟨hp, nd, ?_, isList_frame (fun x hx => hf x (List.mem_cons_of_mem _ hx)) hrest⟩
    rw [hf a (List.mem_cons_self _ _)]
    exact hnd

theorem isList_update {h : Heap} {ps : List Ptr} {p : Option Ptr} {x : Ptr}
    (v : Option list_ele_t) (hx : x ∉ ps) (hl : IsList h p ps) :
    IsList (Function.update h x v) p ps := by
  apply isList_frame _ hl
  intro y hy
  have : y ≠ x := fun e => hx (e ▸ hy)
  simp [Function.update, this]

theorem isList_relink {h h2 : Heap} {t : Ptr} {nd2 : list_ele_t} {ys0 ys : List Ptr} :
    ∀ {xs : List Ptr} {p : Option Ptr}, IsList h p (xs ++ t :: ys0) →
      (∀ x ∈ xs, h2 x = h x) → h2 t = some nd2 → IsList h2 nd2.next ys →
      IsList h2 p (xs ++ t :: ys)
  | [], p, hl, _, ht, hys => ⟨hl.1, nd2, ht, hys⟩
  | x :: xs, p, hl, hf, ht, hys => by
    obtain ⟨hp, nd, hnd, hrest⟩ := hl
    refine ⟨hp, nd, ?_, isList_relink hrest (fun y hy => hf y (List.mem_cons_of_mem _ hy)) ht hys⟩
    rw [hf x (List.mem_cons_self _ _)]
    exact hnd

theorem isList_mid {h : Heap} {xs ys : List Ptr} {p : Option Ptr} {t : Ptr}
    (hl : IsList h p (xs ++ t :: ys)) : ∃ nd, h t = some nd ∧ IsList h nd.next ys := by
  obtain ⟨_, nd, hnd, hrest⟩ := isList_drop hl
  exact ⟨nd, hnd, hrest⟩

theorem isList_fresh {h : Heap} {ps : List Ptr} {p : Option Ptr} {x : Ptr}
    (hl : IsList h p ps) (hx : h x = none) : x ∉ ps := by
  intro hmem
  obtain ⟨nd, hnd⟩ := isList_live hl hmem
  rw [hx] at hnd
  cases hnd

theorem values_frame {h h2 : Heap} {ps : List Ptr}
    (hf : ∀ x ∈ ps, valueAt h2 x = valueAt h x) : values h2 ps = values h ps :=
  List.map_congr_left hf

theorem valueAt_update_ne {h : Heap} {x y : Ptr} (v : Option list_ele_t) (hne : y ≠ x) :
    valueAt (Function.update h x v) y = valueAt h y := by
  simp [valueAt, Function.update, hne]

theorem values_update {h : Heap} {ps : List Ptr} {x : Ptr} (v : Option list_ele_t)
    (hx : x ∉ ps) : values (Function.update h x v) ps = values h ps :=
  values_frame fun _ hy => valueAt_update_ne v fun e => hx (e ▸ hy)

/-! ## Insertion and removal on a well-formed queue -/

theorem q_insert_head_spec {m : Mem} {q : queue_t} {ps : List Ptr} (s : List Nat) {nh : Ptr}
    (hwf : WF m q ps) (hfresh : m.nodes nh = none) :
    ∃ m2 q2, q_insert_head m (some q) (some s) (some nh) true = (m2, some q2, true) ∧
      WF m2 q2 (nh :: ps) ∧
      values m2.nodes (nh :: ps) = copy_string s :: values m.nodes ps ∧
      q2.size = q.size + 1 ∧ m2.mallocs = m.mallocs + 2 ∧ m2.frees = m.frees ∧
      (∀ x, x ≠ nh → m2.nodes x = m.nodes x) := by
  obtain ⟨hl, hsz, htl⟩ := hwf
  have hnot : nh ∉ ps := isList_fresh hl hfresh
  refine ⟨_, _, rfl, ⟨?_, ?_, ?_⟩, ?_, ?_, rfl, rfl,
    fun x hx => Function.update_noteq hx _ _⟩
  · refine ⟨?_, _, Function.update_same _ _ _, ?_⟩
    · by_cases h0 : q.size = 0 <;> simp [h0]
    · exact isList_update _ hnot hl
  · show (if q.size = 0 then _ else _ : queue_t).size + 1 = ((ps.length + 1 : Nat) : Int)
    by_cases h0 : q.size = 0
    · rw [if_pos h0]
      show q.size + 1 = _
      omega
    · rw [if_neg h0]
      show q.size + 1 = _
      omega
  · intro _
    by_cases h0 : q.size = 0
    · have : ps = [] := by
        rw [hsz] at h0
        exact List.length_eq_zero.mp (by exact_mod_cast h0)
      subst this
      simp [h0]
    · have hne : ps ≠ [] := by
        rintro rfl
        exact h0 (by simpa using hsz)
      simp only [h0, if_false]
      rw [htl hne]
      cases ps with
      | nil => exact absurd rfl hne
      | cons a as => simp [List.getLast?_cons_cons]
  · show valueAt _ nh :: values _ ps = _
    rw [values_update _ hnot]
    simp [valueAt]
  · by_cases h0 : q.size = 0 <;> simp [h0]

theorem isList_snoc {h : Heap} {xs : List Ptr} {p : Option Ptr} {t nh : Ptr}
    {tn : list_ele_t} (v : List Nat) (hl : IsList h p (xs ++ [t])) (hfresh : h nh = none)
    (ht : Function.update h nh (some { value := v, next := none }) t = some tn) :
    IsList (Function.update (Function.update h nh (some { value := v, next := none })) t
      (some { tn with next := some nh })) p (xs ++ [t, nh]) := by
  have hnot : nh ∉ xs ++ [t] := isList_fresh hl hfresh
  have hnd : (xs ++ [t]).Nodup := isList_nodup hl
  have htne : nh ≠ t := fun e => hnot (by simp [e])
  refine isList_relink hl ?_ (Function.update_same _ _ _) ?_
  · intro x hx
    have h1 : x ≠ t := by
      rintro rfl
      exact (List.nodup_append.mp hnd).2.2 hx (by simp)
    have h2 : x ≠ nh := by
      rintro rfl
      exact hnot (by simp [hx])
    simp [Function.update, h1, h2]
  · refine ⟨rfl, { value := v, next := none }, ?_, rfl⟩
    simp [Function.update, htne]

theorem q_insert_tail_spec {m : Mem} {q : queue_t} {ps : List Ptr} (s : List Nat) {nh : Ptr}
    (hwf : WF m q ps) (hfresh : m.nodes nh = none) :
    ∃ m2 q2, q_insert_tail m (some q) (some s) (some nh) true = some (m2, some q2, true) ∧
      WF m2 q2 (ps ++ [nh]) ∧
      values m2.nodes (ps ++ [nh]) = values m.nodes ps ++ [copy_string s] ∧
      q2.size = q.size + 1 ∧ m2.mallocs = m.mallocs + 2 ∧ m2.frees = m.frees ∧
      (∀ x, x ≠ nh → x ∉ ps → m2.nodes x = m.nodes x) := by
  obtain ⟨hl, hsz, htl⟩ := hwf
  have hnot : nh ∉ ps := isList_fresh hl hfresh
  rcases List.eq_nil_or_concat ps with rfl | ⟨xs, t, hps⟩
  · have h0 : q.size = 0 := by simpa using hsz
    refine ⟨{ m with
              nodes := (Function.update m.nodes nh (some { value := copy_string s, next := none })),
              mallocs := m.mallocs + 2 },
      { head := some nh, tail := some nh, size := q.size + 1 }, ?_, ⟨?_, ?_, ?_⟩, ?_, rfl, rfl, rfl,
      fun x hx _ => Function.update_noteq hx _ _⟩
    · simp [q_insert_tail, h0]
    · exact ⟨rfl, _, Function.update_same _ _ _, rfl⟩
    · simp [h0]
    · intro _; rfl
    · simp [values, valueAt]
  · rw [List.concat_eq_append] at hps
    subst hps
    have h0 : q.size ≠ 0 := by
      rw [hsz]; simp; omega
    have ht : q.tail = some t := by
      rw [htl (by simp)]; simp
    obtain ⟨tn, htn, _⟩ := isList_mid hl
    have htne : t ≠ nh := fun e => hnot (by simp [e])
    have htn2 : Function.update m.nodes nh
        (some { value := copy_string s, next := none }) t = some tn := by
      simp [Function.update, htne, htn]
    refine ⟨{ m with
              nodes := (Function.update (Function.update m.nodes nh
                (some { value := copy_string s, next := none })) t
                (some { tn with next := some nh })),
              mallocs := m.mallocs + 2 },
      { q with tail := some nh, size := q.size + 1 }, ?_, ⟨?_, ?_, ?_⟩, ?_, rfl, rfl, rfl, ?_⟩
    · simp [q_insert_tail, h0, ht, htn2]
    · have := isList_snoc (copy_string s) hl hfresh htn2
      simpa using this
    · simp [hsz]; omega
    · intro _; simp
    · have hnx : nh ∉ xs := fun e => hnot (by simp [e])
      have htx : t ∉ xs := by
        have := isList_nodup hl
        intro e
        exact (List.nodup_append.mp this).2.2 e (by simp)
      simp only [values, List.map_append, List.map_cons, List.map_nil, List.append_assoc,
        List.singleton_append]
      congr 1
      · apply List.map_congr_left
        intro x hx
        have h1 : x ≠ t := fun e => htx (e ▸ hx)
        have h2 : x ≠ nh := fun e => hnx (e ▸ hx)
        simp [valueAt, Function.update, h1, h2]
      · simp [valueAt, Function.update, htne, htn, htne.symm]
    · intro x hx hxs
      have hxt : x ≠ t := fun e => hxs (by simp [e])
      show Function.update (Function.update m.nodes nh _) t _ x = m.nodes x
      rw [Function.update_noteq hxt, Function.update_noteq hx]

theorem q_remove_head_spec {m : Mem} {q : queue_t} {a : Ptr} {ps : List Ptr}
    (sp : Option Buf) (bufsize : Nat) (hwf : WF m q (a :: ps)) :
    ∃ m2 q2 nd, m.nodes a = some nd ∧
      q_remove_head m (some q) sp bufsize =
        some (m2, some q2,
          sp.map (fun b => store (strncpy b nd.value ((bufsize + SIZE_MOD - 1) % SIZE_MOD))
            ((bufsize : Int) - 1) 0), true) ∧
      m2 = { m with nodes := Function.update m.nodes a none, frees := m.frees + 2 } ∧
      q2 = { q with head := nd.next, size := q.size - 1 } ∧
      IsList m2.nodes q2.head ps ∧ q2.size = (ps.length : Int) ∧
      (ps ≠ [] → q2.tail = ps.getLast?) ∧
      values m2.nodes ps = values m.nodes ps := by
  obtain ⟨hl, hsz, htl⟩ := hwf
  have hnd := isList_nodup hl
  have hnot : a ∉ ps := (List.nodup_cons.mp hnd).1
  obtain ⟨hh, nd, hnd2, hrest⟩ := hl
  refine ⟨{ m with nodes := Function.update m.nodes a none, frees := m.frees + 2 },
    { q with head := nd.next, size := q.size - 1 }, nd, hnd2, ?_, rfl, rfl, ?_, ?_, ?_, ?_⟩
  · simp [q_remove_head, hh, hnd2]
  · exact isList_update _ hnot hrest
  · simp [hsz]
  · intro hne
    show q.tail = _
    rw [htl (by simp)]
    cases ps with
    | nil => exact absurd rfl hne
    | cons b bs => simp [List.getLast?_cons_cons]
  · exact values_update _ hnot

/-! ## Heaps with the same strings -/

theorem sameValues_refl (h : Heap) : SameValues h h := fun _ => rfl

theorem sameValues_trans {h1 h2 h3 : Heap} (a : SameValues h3 h2) (b : SameValues h2 h1) :
    SameValues h3 h1 := fun x => (a x).trans (b x)

theorem sameValues_relink {h : Heap} {x : Ptr} {nd : list_ele_t} (hx : h x = some nd)
    (nx : Option Ptr) : SameValues (Function.update h x (some { nd with next := nx })) h := by
  intro y
  by_cases hy : y = x
  · subst hy
    simp [hx]
  · simp [Function.update, hy]

theorem sameValues_valueAt {h2 h : Heap} (hs : SameValues h2 h) (x : Ptr) :
    valueAt h2 x = valueAt h x := by
  have := hs x
  unfold valueAt
  cases h2x : h2 x <;> cases hx : h x <;> simp [h2x, hx] at this ⊢
  exact this

theorem sameValues_values {h2 h : Heap} (hs : SameValues h2 h) (ps : List Ptr) :
    values h2 ps = values h ps :=
  values_frame fun x _ => sameValues_valueAt hs x

theorem isList_last_next {h : Heap} {xs : List Ptr} {p : Option Ptr} {t : Ptr}
    (hl : IsList h p (xs ++ [t])) : ∃ nd, h t = some nd ∧ nd.next = none := by
  obtain ⟨nd, hnd, hn⟩ := isList_mid hl
  exact ⟨nd, hnd, hn⟩

/-! ## Reversal -/

theorem q_reverse_loop_spec : ∀ (rest : List Ptr) (fuel : Nat) (h : Heap) (c : Ptr)
    (done : List Ptr) (prev : Option Ptr),
    IsList h (some c) (c :: rest) → IsList h prev done → (∀ x ∈ c :: rest, x ∉ done) →
    rest.length < fuel →
    ∃ h2 hd prev2 hn, q_reverse_loop fuel h (some c) prev = some (h2, hd, prev2) ∧
      h2 hd = some hn ∧
      IsList (Function.update h2 hd (some { hn with next := prev2 })) (some hd)
        ((c :: rest).reverse ++ done) ∧
      (∀ x, x ∉ c :: rest → Function.update h2 hd (some { hn with next := prev2 }) x = h x) ∧
      SameValues (Function.update h2 hd (some { hn with next := prev2 })) h
  | [], fuel, h, c, done, prev, hl, hdone, hdisj, hfuel => by
    obtain ⟨_, hn, hhn, hnext⟩ := hl
    have hnone : hn.next = none := hnext
    obtain ⟨f, rfl⟩ : ∃ f, fuel = f + 1 := ⟨fuel - 1, by simp at hfuel; omega⟩
    refine ⟨h, c, prev, hn, by simp [q_reverse_loop, hhn, hnone], hhn, ?_, ?_, ?_⟩
    · refine ⟨rfl, _, Function.update_same _ _ _, ?_⟩
      exact isList_update _ (hdisj c (List.mem_cons_self _ _)) hdone
    · intro x hx
      have : x ≠ c := fun e => hx (by simp [e])
      simp [Function.update, this]
    · exact sameValues_relink hhn prev
  | b :: rest, fuel, h, c, done, prev, hl, hdone, hdisj, hfuel => by
    have hnodup := isList_nodup hl
    obtain ⟨_, hn, hhn, hnext⟩ := hl
    have hb : hn.next = some b := hnext.1
    obtain ⟨f, rfl⟩ : ∃ f, fuel = f + 1 := ⟨fuel - 1, by simp at hfuel; omega⟩
    have hc1 : c ∉ b :: rest := (List.nodup_cons.mp hnodup).1
    have hc2 : c ∉ done := hdisj c (List.mem_cons_self _ _)
    have ih := q_reverse_loop_spec rest f
      (Function.update h c (some { hn with next := prev })) b (c :: done) (some c)
      (isList_update _ hc1 (hb ▸ hnext))
      ⟨rfl, _, Function.update_same _ _ _, isList_update _ hc2 hdone⟩
      (by
        intro x hx hmem
        rcases List.mem_cons.mp hmem with rfl | hmem
        · exact hc1 hx
        · exact hdisj x (List.mem_cons_of_mem _ hx) hmem)
      (by simp at hfuel; omega)
    obtain ⟨h2, hd, prev2, hn2, hrun, hlive, hlist, hframe, hvals⟩ := ih
    refine ⟨h2, hd, prev2, hn2, by simp [q_reverse_loop, hhn, hb, hrun], hlive, ?_, ?_, ?_⟩
    · simpa using hlist
    · intro x hx
      have hxc : x ≠ c := fun e => hx (by simp [e])
      rw [hframe x (fun e => hx (List.mem_cons_of_mem _ e))]
      simp [Function.update, hxc]
    · exact sameValues_trans hvals (sameValues_relink hhn prev)

theorem q_reverse_spec {m : Mem} {q : queue_t} {ps : List Ptr} {fuel : Nat}
    (hwf : WF m q ps) (hfuel : ps.length ≤ fuel) :
    ∃ m2 q2, q_reverse fuel m (some q) = some (m2, some q2) ∧
      WF m2 q2 ps.reverse ∧ q2.head = ps.getLast? ∧ (ps ≠ [] → q2.tail = ps.head?) ∧
      q2.size = q.size ∧
      SameValues m2.nodes m.nodes ∧ (∀ x, x ∉ ps → m2.nodes x = m.nodes x) ∧
      m2.mallocs = m.mallocs ∧ m2.frees = m.frees := by
  obtain ⟨hl, hsz, htl⟩ := hwf
  cases ps with
  | nil =>
    have hh : q.head = none := hl
    refine ⟨m, q, by simp [q_reverse, hh], ⟨hl, hsz, fun h => absurd rfl h⟩, by simpa using hh,
      fun h => absurd rfl h, rfl, sameValues_refl _, fun _ _ => rfl, rfl, rfl⟩
  | cons c rest =>
    have hh : q.head = some c := hl.1
    obtain ⟨h2, hd, prev2, hn, hrun, hlive, hlist, hframe, hvals⟩ :=
      q_reverse_loop_spec rest fuel m.nodes c [] none (hh ▸ hl) rfl (by simp)
        (by simp at hfuel; omega)
    rw [List.append_nil] at hlist
    have hhd : some hd = (c :: rest).getLast? := by
      obtain ⟨nd, as, has, _, _⟩ := isList_some hlist
      have h1 : ((c :: rest).reverse).head? = some hd := by rw [has]; rfl
      rw [List.head?_reverse] at h1
      exact h1.symm
    refine ⟨{ m with nodes := Function.update h2 hd (some { hn with next := prev2 }) },
      { q with head := some hd, tail := some c }, ?_, ⟨hlist, ?_, ?_⟩, hhd, ?_, rfl, hvals,
      hframe, rfl, rfl⟩
    · simp [q_reverse, hh, hrun, hlive]
    · simpa using hsz
    · intro _
      simp
    · intro _
      rfl

/-! ## Merging -/

theorem mergeP_nil_right (v : Ptr → List Nat) (ls : List Ptr) : mergeP v ls [] = ls := by
  cases ls <;> simp [mergeP]

theorem mergeP_perm (v : Ptr → List Nat) : ∀ (ls rs : List Ptr),
    (mergeP v ls rs).Perm (ls ++ rs)
  | [], rs => by simp [mergeP]
  | a :: as, [] => by simp [mergeP]
  | a :: as, b :: bs => by
    simp only [mergeP]
    split
    · exact (mergeP_perm v as (b :: bs)).cons a
    · have h1 := (mergeP_perm v (a :: as) bs).cons b
      refine h1.trans ?_
      simpa using (List.perm_middle : ((a :: as) ++ b :: bs).Perm (b :: ((a :: as) ++ bs))).symm
termination_by ls rs => ls.length + rs.length

theorem mem_mergeP {v : Ptr → List Nat} {ls rs : List Ptr} {x : Ptr} :
    x ∈ mergeP v ls rs ↔ x ∈ ls ∨ x ∈ rs := by
  rw [(mergeP_perm v ls rs).mem_iff, List.mem_append]

theorem mergeP_sorted (v : Ptr → List Nat) : ∀ (ls rs : List Ptr),
    SortedStr (ls.map v) → SortedStr (rs.map v) → SortedStr ((mergeP v ls rs).map v)
  | [], rs, _, h2 => by simpa [mergeP] using h2
  | a :: as, [], h1, _ => by simpa [mergeP] using h1
  | a :: as, b :: bs, h1, h2 => by
    unfold SortedStr at h1 h2 ⊢
    simp only [mergeP]
    have h1c := h1
    have h2c := h2
    simp only [List.map_cons, List.pairwise_cons] at h1c h2c
    split
    · rename_i hlt
      have ih := mergeP_sorted v as (b :: bs) h1c.2 h2
      simp only [List.map_cons, List.pairwise_cons]
      refine ⟨?_, ih⟩
      intro y hy
      obtain ⟨x, hx, rfl⟩ := List.mem_map.mp hy
      rcases mem_mergeP.mp hx with hx | hx
      · exact h1c.1 _ (List.mem_map_of_mem _ hx)
      · rcases List.mem_cons.mp hx with rfl | hx
        · exact le_of_lt hlt
        · exact strcmp_trans _ _ _ (le_of_lt hlt) (h2c.1 _ (List.mem_map_of_mem _ hx))
    · rename_i hlt
      have hba : strcmp (v b) (v a) ≤ 0 := strcmp_total _ _ hlt
      have ih := mergeP_sorted v (a :: as) bs h1 h2c.2
      simp only [List.map_cons, List.pairwise_cons]
      refine ⟨?_, ih⟩
      intro y hy
      obtain ⟨x, hx, rfl⟩ := List.mem_map.mp hy
      rcases mem_mergeP.mp hx with hx | hx
      · rcases List.mem_cons.mp hx with rfl | hx
        · exact hba
        · exact strcmp_trans _ _ _ hba (h1c.1 _ (List.mem_map_of_mem _ hx))
      · exact h2c.1 _ (List.mem_map_of_mem _ hx)
termination_by ls rs => ls.length + rs.length

theorem list_merge_spec : ∀ (fuel : Nat) (ls rs : List Ptr) (h : Heap) (l r : Option Ptr),
    IsList h l ls → IsList h r rs → (∀ x ∈ ls, x ∉ rs) → ls.length + rs.length < fuel →
    ∃ h2 p, list_merge fuel h l r = some (h2, p) ∧
      IsList h2 p (mergeP (valueAt h) ls rs) ∧ SameValues h2 h ∧
      (∀ x, x ∉ ls → x ∉ rs → h2 x = h x)
  | 0, _, _, _, _, _, _, _, _, hfuel => absurd hfuel (Nat.not_lt_zero _)
  | fuel + 1, [], rs, h, l, r, hl, hr, _, _ => by
    have : l = none := hl
    subst this
    exact ⟨h, r, by simp [list_merge], by simpa [mergeP] using hr, sameValues_refl _,
      fun _ _ _ => rfl⟩
  | fuel + 1, a :: as, [], h, l, r, hl, hr, _, _ => by
    have hr2 : r = none := hr
    have hl2 : l = some a := hl.1
    subst hr2 hl2
    exact ⟨h, some a, by simp [list_merge], by simpa [mergeP] using hl, sameValues_refl _,
      fun _ _ _ => rfl⟩
  | fuel + 1, a :: as, b :: bs, h, l, r, hl, hr, hdisj, hfuel => by
    have hnl := isList_nodup hl
    have hnr := isList_nodup hr
    obtain ⟨hl2, ln, hln, hlrest⟩ := hl
    obtain ⟨hr2, rn, hrn, hrrest⟩ := hr
    subst hl2 hr2
    have hva : valueAt h a = ln.value := by simp [valueAt, hln]
    have hvb : valueAt h b = rn.value := by simp [valueAt, hrn]
    by_cases hlt : strcmp ln.value rn.value < 0
    · obtain ⟨h1, res, hrun, hlist, hvals, hframe⟩ :=
        list_merge_spec fuel as (b :: bs) h ln.next (some b) hlrest ⟨rfl, rn, hrn, hrrest⟩
          (fun x hx => hdisj x (List.mem_cons_of_mem _ hx))
          (by simp at hfuel ⊢; omega)
      have ha1 : a ∉ as := (List.nodup_cons.mp hnl).1
      have ha2 : a ∉ b :: bs := hdisj a (List.mem_cons_self _ _)
      have hh1a : h1 a = some ln := by rw [hframe a ha1 ha2]; exact hln
      refine ⟨Function.update h1 a (some { ln with next := res }), some a, ?_, ?_, ?_, ?_⟩
      · simp [list_merge, hln, hrn, hlt, hrun, hh1a]
      · have : mergeP (valueAt h) (a :: as) (b :: bs) =
            a :: mergeP (valueAt h) as (b :: bs) := by
          simp [mergeP, hva, hvb, hlt]
        rw [this]
        refine ⟨rfl, _, Function.update_same _ _ _, isList_update _ ?_ hlist⟩
        intro hmem
        rcases mem_mergeP.mp hmem with hm | hm
        · exact ha1 hm
        · exact ha2 hm
      · exact sameValues_trans (sameValues_relink hh1a res) hvals
      · intro x hx1 hx2
        have hxa : x ≠ a := fun e => hx1 (by simp [e])
        rw [Function.update_noteq hxa]
        exact hframe x (fun e => hx1 (List.mem_cons_of_mem _ e)) hx2
    · obtain ⟨h1, res, hrun, hlist, hvals, hframe⟩ :=
        list_merge_spec fuel (a :: as) bs h (some a) rn.next ⟨rfl, ln, hln, hlrest⟩ hrrest
          (fun x hx hmem => hdisj x hx (List.mem_cons_of_mem _ hmem))
          (by simp at hfuel ⊢; omega)
      have hb1 : b ∉ bs := (List.nodup_cons.mp hnr).1
      have hb2 : b ∉ a :: as := fun e => hdisj b e (List.mem_cons_self _ _)
      have hh1b : h1 b = some rn := by rw [hframe b hb2 hb1]; exact hrn
      refine ⟨Function.update h1 b (some { rn with next := res }), some b, ?_, ?_, ?_, ?_⟩
      · simp [list_merge, hln, hrn, hlt, hrun, hh1b]
      · have : mergeP (valueAt h) (a :: as) (b :: bs) =
            b :: mergeP (valueAt h) (a :: as) bs := by
          simp [mergeP, hva, hvb, hlt]
        rw [this]
        refine ⟨rfl, _, Function.update_same _ _ _, isList_update _ ?_ hlist⟩
        intro hmem
        rcases mem_mergeP.mp hmem with hm | hm
        · exact hb2 hm
        · exact hb1 hm
      · exact sameValues_trans (sameValues_relink hh1b res) hvals
      · intro x hx1 hx2
        have hxb : x ≠ b := fun e => hx2 (by simp [e])
        rw [Function.update_noteq hxb]
        exact hframe x hx1 (fun e => hx2 (List.mem_cons_of_mem _ e))

/-! ## Merge sort -/

theorem split_loop_spec {h : Heap} : ∀ (fuel : Nat) (ys xs : List Ptr) (s f : Option Ptr),
    IsList h s xs → IsList h f ys → ys.length < xs.length → ys.length / 2 < fuel →
    ∃ r, split_loop fuel h s f = some r ∧ IsList h r (xs.drop (ys.length / 2))
  | 0, _, _, _, _, _, _, _, hfuel => absurd hfuel (Nat.not_lt_zero _)
  | fuel + 1, [], xs, s, f, hs, hf, _, _ => by
    have : f = none := hf
    subst this
    exact ⟨s, by simp [split_loop], by simpa using hs⟩
  | fuel + 1, [y], xs, s, f, hs, hf, _, _ => by
    obtain ⟨hf1, fn, hfn, hnext⟩ := hf
    have hnone : fn.next = none := hnext
    subst hf1
    exact ⟨s, by simp [split_loop, hfn, hnone], by simpa using hs⟩
  | fuel + 1, y1 :: y2 :: ys, xs, s, f, hs, hf, hlen, hfuel => by
    obtain ⟨hf1, fn, hfn, hf2, fn1, hfn1, hrest⟩ := hf
    subst hf1
    cases xs with
    | nil => simp at hlen
    | cons x xs =>
      obtain ⟨hs1, sn, hsn, hsrest⟩ := hs
      subst hs1
      have hdiv : (y1 :: y2 :: ys).length / 2 = ys.length / 2 + 1 := by
        simp only [List.length_cons]
        omega
      obtain ⟨r, hrun, hlist⟩ := split_loop_spec fuel ys xs sn.next fn1.next hsrest hrest
        (by simp at hlen ⊢; omega) (by rw [hdiv] at hfuel; omega)
      refine ⟨r, ?_, ?_⟩
      · simp [split_loop, hfn, hf2, hsn, hfn1, hrun]
      · rw [hdiv]
        simpa using hlist

theorem tail_walk_spec {h : Heap} : ∀ (rest : List Ptr) (fuel : Nat) (c : Ptr),
    IsList h (some c) (c :: rest) → rest.length < fuel →
    tail_walk fuel h (some c) = (c :: rest).getLast?
  | [], fuel, c, hl, hfuel => by
    obtain ⟨f, rfl⟩ : ∃ f, fuel = f + 1 := ⟨fuel - 1, by omega⟩
    obtain ⟨_, hn, hhn, hnext⟩ := hl
    have hnone : hn.next = none := hnext
    simp [tail_walk, hhn, hnone]
  | b :: rest, fuel, c, hl, hfuel => by
    obtain ⟨f, rfl⟩ : ∃ f, fuel = f + 1 := ⟨fuel - 1, by omega⟩
    obtain ⟨_, hn, hhn, hnext⟩ := hl
    have hb : hn.next = some b := hnext.1
    have ih := tail_walk_spec rest f b (hb ▸ hnext) (by simp at hfuel; omega)
    simp [tail_walk, hhn, hb, ih, List.getLast?_cons_cons]

theorem list_mergesort_spec : ∀ (fuel : Nat) (ps : List Ptr) (h : Heap) (p : Option Ptr),
    IsList h p ps → ps.length + 1 < fuel →
    ∃ h2 p2 ps2, list_mergesort fuel h p = some (h2, p2) ∧ IsList h2 p2 ps2 ∧
      ps2.Perm ps ∧ SortedStr (values h2 ps2) ∧ SameValues h2 h ∧
      (∀ x, x ∉ ps → h2 x = h x)
  | 0, _, _, _, _, hfuel => absurd hfuel (Nat.not_lt_zero _)
  | fuel + 1, [], h, p, hl, _ => by
    have : p = none := hl
    subst this
    exact ⟨h, none, [], by simp [list_mergesort], hl, List.Perm.refl _, List.Pairwise.nil,
      sameValues_refl _, fun _ _ => rfl⟩
  | fuel + 1, [a], h, p, hl, _ => by
    obtain ⟨hp, hn, hhn, hnext⟩ := hl
    have hnone : hn.next = none := hnext
    subst hp
    exact ⟨h, some a, [a], by simp [list_mergesort, hhn, hnone], ⟨rfl, hn, hhn, hnext⟩,
      List.Perm.refl _, List.pairwise_singleton _ _, sameValues_refl _, fun _ _ => rfl⟩
  | fuel + 1, a :: b :: rest, h, p, hl, hfuel => by
    have hnodup := isList_nodup hl
    have hl0 := hl
    obtain ⟨hp, hn, hhn, hnext⟩ := hl
    have hb : hn.next = some b := hnext.1
    subst hp
    -- the scan
    obtain ⟨r, hscan, hdrop⟩ := split_loop_spec fuel (b :: rest) (a :: b :: rest) (some a)
      hn.next hl0 hnext (by simp) (by simp at hfuel ⊢; omega)
    set k := (b :: rest).length / 2 with hk
    have hklt : k < (a :: b :: rest).length := by
      simp only [List.length_cons] at hk ⊢
      omega
    obtain ⟨slow, right, hdr⟩ : ∃ slow right, (a :: b :: rest).drop k = slow :: right := by
      cases hd : (a :: b :: rest).drop k with
      | nil =>
        have := congrArg List.length hd
        simp only [List.length_drop, List.length_nil] at this
        omega
      | cons s r => exact ⟨s, r, rfl⟩
    rw [hdr] at hdrop
    obtain ⟨hr, sn, hsn, hright⟩ := hdrop
    subst hr
    have hsplit : (a :: b :: rest) = (a :: b :: rest).take k ++ slow :: right := by
      rw [← hdr, List.take_append_drop]
    set left0 := (a :: b :: rest).take k with hleft0
    have hlen0 : left0.length = k := by
      rw [hleft0, List.length_take]
      omega
    have hlenr : left0.length + right.length + 1 = (a :: b :: rest).length := by
      have := congrArg List.length hsplit
      simp only [List.length_append, List.length_cons] at this ⊢
      omega
    rw [hsplit] at hnodup hl0
    have hnd1 : (left0 ++ [slow] ++ right).Nodup := by simpa using hnodup
    have hslow_l : slow ∉ left0 := by
      intro e
      exact (List.nodup_append.mp hnodup).2.2 e (List.mem_cons_self _ _)
    have hslow_r : slow ∉ right :=
      (List.nodup_cons.mp (List.nodup_append.mp hnodup).2.1).1
    have hdisj : ∀ x ∈ left0 ++ [slow], x ∉ right := by
      intro x hx hxr
      exact (List.nodup_append.mp hnd1).2.2 hx hxr
    -- the cut
    have hcutl : IsList (Function.update h slow (some { sn with next := none })) (some a)
        (left0 ++ [slow]) := by
      refine isList_relink hl0 ?_ (Function.update_same _ _ _) rfl
      intro x hx
      have : x ≠ slow := fun e => hslow_l (e ▸ hx)
      simp [Function.update, this]
    have hcutr : IsList (Function.update h slow (some { sn with next := none })) sn.next
        right := isList_update _ hslow_r hright
    -- the left half
    obtain ⟨h2, l, ls, hrun1, hl1, hperm1, hsort1, hvals1, hframe1⟩ :=
      list_mergesort_spec fuel (left0 ++ [slow]) _ (some a) hcutl (by
        simp only [List.length_append, List.length_cons, List.length_nil] at hfuel hlenr ⊢
        simp only [List.length_cons] at hk
        omega)
    have hr2 : IsList h2 sn.next right := by
      refine isList_frame ?_ hcutr
      intro x hx
      exact hframe1 x (fun e => hdisj x e hx)
    -- the right half
    obtain ⟨h3, r, rs, hrun2, hl2, hperm2, hsort2, hvals2, hframe2⟩ :=
      list_mergesort_spec fuel right h2 sn.next hr2 (by
        simp only [List.length_cons] at hfuel hlenr ⊢
        omega)
    have hl3 : IsList h3 l ls := by
      refine isList_frame ?_ hl1
      intro x hx
      exact hframe2 x (hdisj x (hperm1.mem_iff.mp hx))
    have hsort3 : SortedStr (ls.map (valueAt h3)) := by
      have := sameValues_values hvals2 ls
      unfold values at this
      rw [this]
      exact hsort1
    have hdisj2 : ∀ x ∈ ls, x ∉ rs := fun x hx hxr =>
      hdisj x (hperm1.mem_iff.mp hx) (hperm2.mem_iff.mp hxr)
    -- the merge
    obtain ⟨h4, p4, hrun3, hl4, hvals3, hframe3⟩ :=
      list_merge_spec fuel ls rs h3 l r hl3 hl2 hdisj2 (by
        rw [hperm1.length_eq, hperm2.length_eq]
        simp only [List.length_append, List.length_cons, List.length_nil] at hfuel hlenr ⊢
        omega)
    refine ⟨h4, p4, mergeP (valueAt h3) ls rs, ?_, hl4, ?_, ?_, ?_, ?_⟩
    · rw [hb] at hscan
      simp [list_mergesort, hhn, hb, hscan, hsn, hrun1, hrun2, hrun3]
    · refine (mergeP_perm _ ls rs).trans ?_
      rw [hsplit]
      have := hperm1.append hperm2
      simpa using this
    · have := sameValues_values hvals3 (mergeP (valueAt h3) ls rs)
      rw [this]
      exact mergeP_sorted (valueAt h3) ls rs hsort3 hsort2
    · exact sameValues_trans hvals3 (sameValues_trans hvals2
        (sameValues_trans hvals1 (sameValues_relink hsn none)))
    · intro x hx
      rw [hsplit] at hx
      have hx1 : x ∉ left0 ++ [slow] := fun e => hx (by
        rcases List.mem_append.mp e with e | e
        · exact List.mem_append_left _ e
        · exact List.mem_append_right _ (by simp at e; simp [e]))
      have hx2 : x ∉ right := fun e => hx (List.mem_append_right _ (List.mem_cons_of_mem _ e))
      have hxs : x ≠ slow := fun e => hx (by simp [e])
      rw [hframe3 x (fun e => hx1 (hperm1.mem_iff.mp e)) (fun e => hx2 (hperm2.mem_iff.mp e)),
        hframe2 x hx2, hframe1 x hx1]
      simp [Function.update, hxs]

theorem q_sort_spec {m : Mem} {q : queue_t} {ps : List Ptr} {fuel : Nat}
    (hwf : WF m q ps) (hfuel : ps.length + 1 < fuel) :
    ∃ m2 q2 ps2, q_sort fuel m (some q) = some (m2, some q2) ∧ WF m2 q2 ps2 ∧
      ps2.Perm ps ∧ SortedStr (values m2.nodes ps2) ∧ q2.size = q.size ∧
      SameValues m2.nodes m.nodes ∧ (∀ x, x ∉ ps → m2.nodes x = m.nodes x) ∧
      m2.mallocs = m.mallocs ∧ m2.frees = m.frees := by
  obtain ⟨hl, hsz, htl⟩ := hwf
  cases ps with
  | nil =>
    have hh : q.head = none := hl
    exact ⟨m, q, [], by simp [q_sort, hh], ⟨hl, hsz, fun h => absurd rfl h⟩, List.Perm.refl _,
      List.Pairwise.nil, rfl, sameValues_refl _, fun _ _ => rfl, rfl, rfl⟩
  | cons c rest =>
    have hh : q.head = some c := hl.1
    obtain ⟨h2, p2, ps2, hrun, hl2, hperm, hsort, hvals, hframe⟩ :=
      list_mergesort_spec fuel (c :: rest) m.nodes q.head hl hfuel
    cases ps2 with
    | nil => exact absurd hperm.length_eq (by simp)
    | cons d rest2 =>
      have hp2 : p2 = some d := hl2.1
      subst hp2
      have hwalk := tail_walk_spec rest2 fuel d hl2 (by
        have := hperm.length_eq
        simp only [List.length_cons] at this hfuel
        omega)
      obtain ⟨t, ht⟩ : ∃ t, (d :: rest2).getLast? = some t :=
        ⟨(d :: rest2).getLast (by simp), List.getLast?_eq_getLast _ _⟩
      refine ⟨{ m with nodes := h2 }, { q with head := some d, tail := some t }, d :: rest2,
        ?_, ⟨hl2, ?_, ?_⟩, hperm, hsort, rfl, hvals, hframe, rfl, rfl⟩
      · simp [q_sort, hh]
        rw [← hh]
        simp [hrun, hwalk, ht]
      · show q.size = _
        rw [hsz, hperm.length_eq]
      · intro _
        exact ht.symm

/-! ## More fuel gives the same result -/

theorem q_reverse_loop_mono : ∀ (f : Nat) (h : Heap) (c p : Option Ptr)
    (r : Heap × Ptr × Option Ptr), q_reverse_loop f h c p = some r →
    ∀ f2, f ≤ f2 → q_reverse_loop f2 h c p = some r
  | 0, _, _, _, _, hr, _, _ => by simp [q_reverse_loop] at hr
  | f + 1, h, c, p, r, hr, f2, hle => by
    obtain ⟨g, rfl⟩ : ∃ g, f2 = g + 1 := ⟨f2 - 1, by omega⟩
    simp only [q_reverse_loop] at hr ⊢
    cases c with
    | none => simp at hr
    | some hd =>
      simp only at hr ⊢
      cases hh : h hd with
      | none => simp [hh] at hr
      | some hn =>
        simp only [hh] at hr ⊢
        cases hnx : hn.next with
        | none => simpa [hnx] using hr
        | some nx =>
          simp only [hnx] at hr ⊢
          exact q_reverse_loop_mono f _ _ _ r hr g (by omega)

theorem q_reverse_mono {f : Nat} {m : Mem} {q : Option queue_t} {r : Mem × Option queue_t}
    (hr : q_reverse f m q = some r) {f2 : Nat} (hle : f ≤ f2) : q_reverse f2 m q = some r := by
  unfold q_reverse at hr ⊢
  cases q with
  | none => exact hr
  | some qv =>
    simp only at hr ⊢
    cases hh : qv.head with
    | none => simpa [hh] using hr
    | some hd =>
      simp only [hh] at hr ⊢
      cases hl : q_reverse_loop f m.nodes (some hd) none with
      | none => simp [hl] at hr
      | some r1 =>
        rw [q_reverse_loop_mono f _ _ _ r1 hl f2 hle]
        simpa [hl] using hr

theorem list_merge_mono : ∀ (f : Nat) (h : Heap) (l r : Option Ptr)
    (res : Heap × Option Ptr), list_merge f h l r = some res →
    ∀ f2, f ≤ f2 → list_merge f2 h l r = some res
  | 0, _, _, _, _, hr, _, _ => by simp [list_merge] at hr
  | f + 1, h, l, r, res, hr, f2, hle => by
    obtain ⟨g, rfl⟩ : ∃ g, f2 = g + 1 := ⟨f2 - 1, by omega⟩
    have hg : f ≤ g := by omega
    cases l with
    | none => simpa [list_merge] using hr
    | some lp =>
      cases r with
      | none => simpa [list_merge] using hr
      | some rp =>
        simp only [list_merge] at hr ⊢
        cases hl : h lp with
        | none => simp [hl] at hr
        | some ln =>
          cases hrn : h rp with
          | none => simp [hl, hrn] at hr
          | some rn =>
            simp only [hl, hrn] at hr ⊢
            by_cases hlt : strcmp ln.value rn.value < 0
            · simp only [hlt, if_true] at hr ⊢
              cases hin : list_merge f h ln.next (some rp) with
              | none => simp [hin] at hr
              | some r1 =>
                rw [list_merge_mono f _ _ _ r1 hin g hg]
                simpa [hin] using hr
            · simp only [hlt, if_false] at hr ⊢
              cases hin : list_merge f h (some lp) rn.next with
              | none => simp [hin] at hr
              | some r1 =>
                rw [list_merge_mono f _ _ _ r1 hin g hg]
                simpa [hin] using hr

theorem split_loop_mono {h : Heap} : ∀ (f : Nat) (s fa : Option Ptr) (res : Option Ptr),
    split_loop f h s fa = some res → ∀ f2, f ≤ f2 → split_loop f2 h s fa = some res
  | 0, _, _, _, hr, _, _ => by simp [split_loop] at hr
  | f + 1, s, fa, res, hr, f2, hle => by
    obtain ⟨g, rfl⟩ : ∃ g, f2 = g + 1 := ⟨f2 - 1, by omega⟩
    have hg : f ≤ g := by omega
    cases fa with
    | none => simpa [split_loop] using hr
    | some fp =>
      simp only [split_loop] at hr ⊢
      cases hf : h fp with
      | none => simp [hf] at hr
      | some fn =>
        simp only [hf] at hr ⊢
        cases hfx : fn.next with
        | none => simpa [hfx] using hr
        | some f1 =>
          simp only [hfx] at hr ⊢
          cases s with
          | none => simp at hr
          | some sp =>
            simp only at hr ⊢
            cases hs : h sp with
            | none => simp [hs] at hr
            | some sn =>
              cases hf1 : h f1 with
              | none => simp [hs, hf1] at hr
              | some fn1 =>
                simp only [hs, hf1] at hr ⊢
                exact split_loop_mono f _ _ res hr g hg

theorem tail_walk_mono {h : Heap} : ∀ (f : Nat) (t : Option Ptr) (res : Ptr),
    tail_walk f h t = some res → ∀ f2, f ≤ f2 → tail_walk f2 h t = some res
  | 0, _, _, hr, _, _ => by simp [tail_walk] at hr
  | f + 1, t, res, hr, f2, hle => by
    obtain ⟨g, rfl⟩ : ∃ g, f2 = g + 1 := ⟨f2 - 1, by omega⟩
    have hg : f ≤ g := by omega
    cases t with
    | none => simp [tail_walk] at hr
    | some tp =>
      simp only [tail_walk] at hr ⊢
      cases ht : h tp with
      | none => simp [ht] at hr
      | some tn =>
        simp only [ht] at hr ⊢
        cases htx : tn.next with
        | none => simpa [htx] using hr
        | some t1 =>
          simp only [htx] at hr ⊢
          exact tail_walk_mono f _ res hr g hg

theorem list_mergesort_mono : ∀ (f : Nat) (h : Heap) (p : Option Ptr)
    (res : Heap × Option Ptr), list_mergesort f h p = some res →
    ∀ f2, f ≤ f2 → list_mergesort f2 h p = some res
  | 0, _, _, _, hr, _, _ => by simp [list_mergesort] at hr
  | f + 1, h, p, res, hr, f2, hle => by
    obtain ⟨g, rfl⟩ : ∃ g, f2 = g + 1 := ⟨f2 - 1, by omega⟩
    have hg : f ≤ g := by omega
    cases p with
    | none => simpa [list_mergesort] using hr
    | some hd =>
      simp only [list_mergesort] at hr ⊢
      cases hh : h hd with
      | none => simp [hh] at hr
      | some hn =>
        simp only [hh] at hr ⊢
        cases hnx : hn.next with
        | none => simpa [hnx] using hr
        | some nx =>
          simp only [hnx] at hr ⊢
          cases hsp : split_loop f h (some hd) (some nx) with
          | none => simp [hsp] at hr
          | some sl =>
            rw [split_loop_mono f _ _ sl hsp g hg]
            simp only [hsp] at hr ⊢
            cases sl with
            | none => simp at hr
            | some slow =>
              simp only at hr ⊢
              cases hs : h slow with
              | none => simp [hs] at hr
              | some sn =>
                simp only [hs] at hr ⊢
                cases h1 : list_mergesort f
                    (Function.update h slow (some { sn with next := none })) (some hd) with
                | none => simp [h1] at hr
                | some r1 =>
                  rw [list_mergesort_mono f _ _ r1 h1 g hg]
                  simp only [h1] at hr ⊢
                  cases h2 : list_mergesort f r1.1 sn.next with
                  | none => simp [h2] at hr
                  | some r2 =>
                    rw [list_mergesort_mono f _ _ r2 h2 g hg]
                    simp only [h2] at hr ⊢
                    exact list_merge_mono f _ _ _ res hr g hg

theorem q_sort_mono {f : Nat} {m : Mem} {q : Option queue_t} {r : Mem × Option queue_t}
    (hr : q_sort f m q = some r) {f2 : Nat} (hle : f ≤ f2) : q_sort f2 m q = some r := by
  unfold q_sort at hr ⊢
  cases q with
  | none => exact hr
  | some qv =>
    simp only at hr ⊢
    cases hh : qv.head with
    | none => simpa [hh] using hr
    | some hd =>
      simp only [hh] at hr ⊢
      cases hl : list_mergesort f m.nodes (some hd) with
      | none => simp [hl] at hr
      | some r1 =>
        rw [list_mergesort_mono f _ _ r1 hl f2 hle]
        simp only [hl] at hr ⊢
        cases hw : tail_walk f r1.1 r1.2 with
        | none => simp [hw] at hr
        | some t =>
          rw [tail_walk_mono f _ t hw f2 hle]
          simpa [hw] using hr

/-! ## Reading a chain -/

theorem readList_of_isList {h : Heap} : ∀ {ps : List Ptr} {p : Option Ptr} {fuel : Nat},
    IsList h p ps → ps.length ≤ fuel → readList fuel h p = some ps
  | [], p, fuel, hl, _ => by
    have : p = none := hl
    subst this
    cases fuel <;> rfl
  | a :: as, p, fuel, hl, hfuel => by
    obtain ⟨f, rfl⟩ : ∃ f, fuel = f + 1 := ⟨fuel - 1, by simp at hfuel; omega⟩
    obtain ⟨hp, nd, hnd, hrest⟩ := hl
    subst hp
    have ih : readList f h nd.next = some as :=
      readList_of_isList hrest (by simp at hfuel; omega)
    simp [readList, hnd, ih]

theorem values_perm {h2 h : Heap} {ps2 ps : List Ptr} (hs : SameValues h2 h)
    (hp : ps2.Perm ps) : (values h2 ps2).Perm (values h ps) := by
  rw [sameValues_values hs]
  exact hp.map _

theorem wf_fruits : WF fruits.1 fruits.2 [1, 2, 3] :=
  ⟨⟨rfl, _, rfl, rfl, _, rfl, rfl, _, rfl, rfl⟩, rfl, fun _ => rfl⟩

theorem wf_abc : WF abc.1 abc.2 [1, 2, 3] :=
  ⟨⟨rfl, _, rfl, rfl, _, rfl, rfl, _, rfl, rfl⟩, rfl, fun _ => rfl⟩

/-! ## The claims -/

/-- C1: for every well-formed queue, `q_sort` (given enough fuel) returns, and
afterwards the strings read from `head` are in non-decreasing `strcmp` order (no
string is lexicographically below an earlier one) and are a permutation of the
strings before the call; the nodes are the same nodes and the count is
unchanged. -/
theorem q_sort_sorted_perm (m : Mem) (q : queue_t) (ps : List Ptr) (fuel : Nat)
    (hwf : WF m q ps) (hfuel : ps.length + 1 < fuel) :
    ∃ m2 q2 ps2, q_sort fuel m (some q) = some (m2, some q2) ∧
      IsList m2.nodes q2.head ps2 ∧ readList fuel m2.nodes q2.head = some ps2 ∧
      SortedStr (values m2.nodes ps2) ∧
      (values m2.nodes ps2).Pairwise
        (fun a b => ¬ List.Lex (fun x y : Nat => x < y) b a) ∧
      (values m2.nodes ps2).Perm (values m.nodes ps) ∧ ps2.Perm ps ∧
      ps2.length = ps.length ∧ q2.size = q.size ∧ q_size (some q2) = (ps2.length : Int) := by
  obtain ⟨m2, q2, ps2, hrun, hwf2, hperm, hsort, hsz, hvals, _, _, _⟩ := q_sort_spec hwf hfuel
  refine ⟨m2, q2, ps2, hrun, hwf2.1, ?_, hsort, ?_, values_perm hvals hperm, hperm,
    hperm.length_eq, hsz, hwf2.2.1⟩
  · exact readList_of_isList hwf2.1 (by rw [hperm.length_eq]; omega)
  · exact hsort.imp fun h => (strcmp_nonpos_iff_lex _ _).mp h

/-- Witness for C1: tail-inserting "banana", "apple", "cherry" and sorting gives the
removal order "apple", "banana", "cherry". -/
theorem q_sort_sorted_perm_witness :
    WF fruits.1 fruits.2 [1, 2, 3] ∧
    values fruits.1.nodes [1, 2, 3] = [banana, apple, cherry] ∧
    (∃ m2 q2 ps2, q_sort 5 fruits.1 (some fruits.2) = some (m2, some q2) ∧
      IsList m2.nodes q2.head ps2 ∧ SortedStr (values m2.nodes ps2) ∧
      (values m2.nodes ps2).Perm [banana, apple, cherry]) ∧
    (q_sort 5 fruits.1 (some fruits.2)).bind (fun r => remove_n 3 r.1 r.2 16) =
      some [apple, banana, cherry] :=
  ⟨wf_fruits, by decide,
    (match q_sort_sorted_perm fruits.1 fruits.2 [1, 2, 3] 5 wf_fruits (by decide) with
      | ⟨m2, q2, ps2, h1, h2, _, h3, _, h4, _⟩ => ⟨m2, q2, ps2, h1, h2, h3, h4⟩),
    by decide⟩

/-- C2: for every non-empty well-formed queue, `q_reverse` (given enough fuel)
returns, and afterwards the nodes read from `head` are the old nodes in reverse
order with their strings, the count is unchanged, `head` is the old last node,
`tail` is the old first node, and the successor link of `tail` is `NULL`. -/
theorem q_reverse_reverses (m : Mem) (q : queue_t) (ps : List Ptr) (fuel : Nat)
    (hwf : WF m q ps) (hne : ps ≠ []) (hfuel : ps.length ≤ fuel) :
    ∃ m2 q2, q_reverse fuel m (some q) = some (m2, some q2) ∧
      IsList m2.nodes q2.head ps.reverse ∧
      readList fuel m2.nodes q2.head = some ps.reverse ∧
      values m2.nodes ps.reverse = (values m.nodes ps).reverse ∧
      q2.size = q.size ∧ q_size (some q2) = (ps.reverse.length : Int) ∧
      q2.head = ps.getLast? ∧ q2.tail = ps.head? ∧
      ∃ t nd, q2.tail = some t ∧ m2.nodes t = some nd ∧ nd.next = none := by
  obtain ⟨m2, q2, hrun, hwf2, hhead, htail, hsz, hvals, _, _, _⟩ := q_reverse_spec hwf hfuel
  refine ⟨m2, q2, hrun, hwf2.1, readList_of_isList hwf2.1 (by simpa using hfuel), ?_, hsz,
    hwf2.2.1, hhead, htail hne, ?_⟩
  · rw [sameValues_values hvals]
    simp [values]
  · cases ps with
    | nil => exact absurd rfl hne
    | cons c rest =>
      have hl := hwf2.1
      rw [List.reverse_cons] at hl
      obtain ⟨nd, hnd, hnone⟩ := isList_last_next hl
      exact ⟨c, nd, htail hne, hnd, hnone⟩

/-- Witness for C2: tail-inserting "a", "b", "c" and reversing gives the removal
order "c", "b", "a". -/
theorem q_reverse_reverses_witness :
    WF abc.1 abc.2 [1, 2, 3] ∧ values abc.1.nodes [1, 2, 3] = [[97], [98], [99]] ∧
    (∃ m2 q2, q_reverse 3 abc.1 (some abc.2) = some (m2, some q2) ∧
      IsList m2.nodes q2.head [3, 2, 1] ∧ values m2.nodes [3, 2, 1] = [[99], [98], [97]] ∧
      q2.head = some 3 ∧ q2.tail = some 1) ∧
    (q_reverse 3 abc.1 (some abc.2)).bind (fun r => remove_n 3 r.1 r.2 2) =
      some [[99], [98], [97]] :=
  ⟨wf_abc, by decide,
    (match q_reverse_reverses abc.1 abc.2 [1, 2, 3] 3 wf_abc (by decide) (by decide) with
      | ⟨m2, q2, h1, h2, _, h3, _, _, h4, h5, _⟩ => ⟨m2, q2, h1, h2, h3, h4, h5⟩),
    by decide⟩

/-! ## Reachable queues are well formed -/

theorem wf_congr {m m2 : Mem} {q : queue_t} {ps : List Ptr} (hn : m2.nodes = m.nodes)
    (hwf : WF m q ps) : WF m2 q ps := by
  unfold WF at hwf ⊢
  rw [hn]
  exact hwf

theorem wf_nil_head {m : Mem} {q : queue_t} (hwf : WF m q []) : q.head = none := hwf.1

theorem wf_insert_head {m : Mem} {q : queue_t} {ps : List Ptr} (hwf : WF m q ps)
    (s : Option (List Nat)) (newh : Option Ptr) (strAlloc : Bool)
    (hfresh : ∀ nh, newh = some nh → m.nodes nh = none) {m2 : Mem} {q2 : queue_t} {b : Bool}
    (hrun : q_insert_head m (some q) s newh strAlloc = (m2, some q2, b)) :
    ∃ ps2, WF m2 q2 ps2 ∧
      (q2.size : Int) = q.size + (if b then 1 else 0) := by
  cases s with
  | none =>
    simp [q_insert_head] at hrun
    obtain ⟨rfl, rfl, rfl⟩ := hrun
    exact ⟨ps, hwf, by simp⟩
  | some sv =>
    cases newh with
    | none =>
      simp [q_insert_head] at hrun
      obtain ⟨rfl, rfl, rfl⟩ := hrun
      exact ⟨ps, hwf, by simp⟩
    | some nh =>
      cases strAlloc with
      | false =>
        simp [q_insert_head] at hrun
        obtain ⟨rfl, rfl, rfl⟩ := hrun
        exact ⟨ps, wf_congr rfl hwf, by simp⟩
      | true =>
        obtain ⟨m3, q3, hrun3, hwf3, _, hsz, _⟩ := q_insert_head_spec sv hwf (hfresh nh rfl)
        rw [hrun3] at hrun
        simp only [Prod.mk.injEq, Option.some.injEq] at hrun
        obtain ⟨rfl, rfl, rfl⟩ := hrun
        exact ⟨_, hwf3, by simp [hsz]⟩

theorem wf_insert_tail {m : Mem} {q : queue_t} {ps : List Ptr} (hwf : WF m q ps)
    (s : Option (List Nat)) (newh : Option Ptr) (strAlloc : Bool)
    (hfresh : ∀ nh, newh = some nh → m.nodes nh = none) {m2 : Mem} {q2 : queue_t} {b : Bool}
    (hrun : q_insert_tail m (some q) s newh strAlloc = some (m2, some q2, b)) :
    ∃ ps2, WF m2 q2 ps2 ∧
      (q2.size : Int) = q.size + (if b then 1 else 0) := by
  cases s with
  | none =>
    simp [q_insert_tail] at hrun
    obtain ⟨rfl, rfl, rfl⟩ := hrun
    exact ⟨ps, hwf, by simp⟩
  | some sv =>
    cases newh with
    | none =>
      simp [q_insert_tail] at hrun
      obtain ⟨rfl, rfl, rfl⟩ := hrun
      exact ⟨ps, hwf, by simp⟩
    | some nh =>
      cases strAlloc with
      | false =>
        simp [q_insert_tail] at hrun
        obtain ⟨rfl, rfl, rfl⟩ := hrun
        exact ⟨ps, wf_congr rfl hwf, by simp⟩
      | true =>
        obtain ⟨m3, q3, hrun3, hwf3, _, hsz, _⟩ := q_insert_tail_spec sv hwf (hfresh nh rfl)
        rw [hrun3] at hrun
        simp only [Prod.mk.injEq, Option.some.injEq] at hrun
        obtain ⟨rfl, rfl, rfl⟩ := hrun
        exact ⟨_, hwf3, by simp [hsz]⟩

theorem wf_remove_head {m : Mem} {q : queue_t} {ps : List Ptr} (hwf : WF m q ps)
    (sp : Option Buf) (bufsize : Nat) {m2 : Mem} {q2 : queue_t} {sp2 : Option Buf} {b : Bool}
    (hrun : q_remove_head m (some q) sp bufsize = some (m2, some q2, sp2, b)) :
    WF m2 q2 ps.tail ∧ (q2.size : Int) = q.size - (if b then 1 else 0) ∧
      (b = true ↔ ps ≠ []) := by
  cases ps with
  | nil =>
    have hh : q.head = none := hwf.1
    simp [q_remove_head, hh] at hrun
    obtain ⟨rfl, rfl, _, rfl⟩ := hrun
    exact ⟨hwf, by simp, by simp⟩
  | cons a as =>
    obtain ⟨m3, q3, nd, _, hrun3, _, _, hl, hsz, htl, _⟩ := q_remove_head_spec sp bufsize hwf
    rw [hrun3] at hrun
    simp only [Prod.mk.injEq, Option.some.injEq] at hrun
    obtain ⟨rfl, rfl, _, rfl⟩ := hrun
    refine ⟨⟨hl, hsz, htl⟩, ?_, by simp⟩
    have := hwf.2.1
    simp only [List.length_cons] at this
    simp [hsz, this]

theorem wf_reverse {m : Mem} {q : queue_t} {ps : List Ptr} (hwf : WF m q ps) (fuel : Nat)
    {m2 : Mem} {q2 : queue_t} (hrun : q_reverse fuel m (some q) = some (m2, some q2)) :
    WF m2 q2 ps.reverse ∧ q2.size = q.size := by
  obtain ⟨m3, q3, hrun3, hwf3, _, _, hsz, _⟩ :=
    q_reverse_spec hwf (le_max_right fuel ps.length)
  rw [q_reverse_mono hrun (le_max_left _ _)] at hrun3
  simp only [Option.some.injEq, Prod.mk.injEq] at hrun3
  obtain ⟨rfl, rfl⟩ := hrun3
  exact ⟨hwf3, hsz⟩

theorem wf_sort {m : Mem} {q : queue_t} {ps : List Ptr} (hwf : WF m q ps) (fuel : Nat)
    {m2 : Mem} {q2 : queue_t} (hrun : q_sort fuel m (some q) = some (m2, some q2)) :
    ∃ ps2, WF m2 q2 ps2 ∧ ps2.Perm ps ∧ q2.size = q.size := by
  obtain ⟨m3, q3, ps3, hrun3, hwf3, hperm, _, hsz, _⟩ :=
    q_sort_spec hwf (show ps.length + 1 < max fuel (ps.length + 2) from
      lt_of_lt_of_le (Nat.lt_succ_self _) (le_max_right _ _))
  rw [q_sort_mono hrun (le_max_left _ _)] at hrun3
  simp only [Option.some.injEq, Prod.mk.injEq] at hrun3
  obtain ⟨rfl, rfl⟩ := hrun3
  exact ⟨ps3, hwf3, hperm, hsz⟩

theorem reachable_wf {m : Mem} {q : queue_t} (hr : Reachable m q) : ∃ ps, WF m q ps := by
  induction hr with
  | new m q hq =>
    simp [q_new] at hq
    subst hq
    exact ⟨[], rfl, rfl, fun h => absurd rfl h⟩
  | insert_head s newh strAlloc m2 q2 b _ hfresh hrun ih =>
    obtain ⟨ps, hwf⟩ := ih
    obtain ⟨ps2, hwf2, _⟩ := wf_insert_head hwf s newh strAlloc hfresh hrun
    exact ⟨ps2, hwf2⟩
  | insert_tail s newh strAlloc m2 q2 b _ hfresh hrun ih =>
    obtain ⟨ps, hwf⟩ := ih
    obtain ⟨ps2, hwf2, _⟩ := wf_insert_tail hwf s newh strAlloc hfresh hrun
    exact ⟨ps2, hwf2⟩
  | remove_head sp bufsize m2 q2 sp2 b _ hrun ih =>
    obtain ⟨ps, hwf⟩ := ih
    exact ⟨ps.tail, (wf_remove_head hwf sp bufsize hrun).1⟩
  | reverse fuel m2 q2 _ hrun ih =>
    obtain ⟨ps, hwf⟩ := ih
    exact ⟨ps.reverse, (wf_reverse hwf fuel hrun).1⟩
  | sort fuel m2 q2 _ hrun ih =>
    obtain ⟨ps, hwf⟩ := ih
    obtain ⟨ps2, hwf2, _⟩ := wf_sort hwf fuel hrun
    exact ⟨ps2, hwf2⟩

/-! ## The output buffer of `q_remove_head` -/

theorem size_sub_one {n : Nat} (h1 : 1 ≤ n) (h2 : n < SIZE_MOD) :
    (n + SIZE_MOD - 1) % SIZE_MOD = n - 1 := by
  unfold SIZE_MOD at h2 ⊢
  omega

theorem out_buf_low (buf : Buf) (v : List Nat) {n : Nat} (i : Nat) (hi : i < n - 1) :
    store (strncpy buf v (n - 1)) ((n : Int) - 1) 0 (i : Int) = v.getD i 0 := by
  have h1 : ¬ ((i : Int) = (n : Int) - 1) := by omega
  have h2 : (0 : Int) ≤ (i : Int) ∧ (i : Int) < ((n - 1 : Nat) : Int) := by
    constructor <;> omega
  show (if (i : Int) = (n : Int) - 1 then 0
    else if 0 ≤ (i : Int) ∧ (i : Int) < ((n - 1 : Nat) : Int) then v.getD (i : Int).toNat 0
    else buf i) = v.getD i 0
  rw [if_neg h1, if_pos h2, Int.toNat_ofNat]

theorem out_buf_last (buf : Buf) (v : List Nat) (n : Nat) :
    store (strncpy buf v (n - 1)) ((n : Int) - 1) 0 ((n : Int) - 1) = 0 := by
  simp [store]

theorem out_buf_frame (buf : Buf) (v : List Nat) {n : Nat} (hn : 1 ≤ n) (i : Int)
    (hi : i < 0 ∨ (n : Int) ≤ i) :
    store (strncpy buf v (n - 1)) ((n : Int) - 1) 0 i = buf i := by
  have h1 : ¬ (i = (n : Int) - 1) := by omega
  have h2 : ¬ (0 ≤ i ∧ i < ((n - 1 : Nat) : Int)) := by omega
  show (if i = (n : Int) - 1 then 0
    else if 0 ≤ i ∧ i < ((n - 1 : Nat) : Int) then v.getD i.toNat 0
    else buf i) = buf i
  rw [if_neg h1, if_neg h2]

theorem range_map_getD_pad (s : List Nat) (k : Nat) :
    (List.range (s.length + k)).map (fun i => s.getD i 0) = s ++ List.replicate k 0 := by
  apply List.ext_getElem
  · simp
  · intro i h1 h2
    simp only [List.getElem_map, List.getElem_range]
    by_cases hi : i < s.length
    · rw [List.getElem_append_left hi, List.getD_eq_getElem _ _ hi]
    · rw [List.getElem_append_right (by omega)]
      rw [List.getD_eq_default _ _ (Nat.le_of_not_lt hi)]
      simp

theorem takeWhile_pad (s : List Nat) (k : Nat) (hs : ∀ b ∈ s, b ≠ 0) :
    (s ++ List.replicate k 0).takeWhile (fun c => c != 0) = s := by
  rw [List.takeWhile_append_of_pos]
  · cases k <;> simp [List.replicate_succ]
  · intro b hb
    simpa using hs b hb

theorem readStr_out_buf (buf : Buf) (v : List Nat) {n : Nat} (hs : ∀ b ∈ v, b ≠ 0)
    (hn : v.length < n) :
    readStr (store (strncpy buf v (n - 1)) ((n : Int) - 1) 0) n = v := by
  unfold readStr
  have h1 : (List.range n).map
      (fun (i : Nat) => store (strncpy buf v (n - 1)) ((n : Int) - 1) 0 (i : Int)) =
      (List.range n).map (fun i => v.getD i 0) := by
    apply List.map_congr_left
    intro i hi
    have hi2 : i < n := List.mem_range.mp hi
    by_cases hlast : i < n - 1
    · exact out_buf_low buf v i hlast
    · have hin : i = n - 1 := by omega
      have hcast : (i : Int) = (n : Int) - 1 := by omega
      rw [hcast, out_buf_last]
      rw [List.getD_eq_default]
      omega
  rw [h1]
  obtain ⟨k, rfl⟩ : ∃ k, n = v.length + k := ⟨n - v.length, by omega⟩
  rw [range_map_getD_pad, takeWhile_pad v k hs]

/-! ## Runs of tail inserts and of removals -/

theorem reachable_emptied : Reachable emptied.1 emptied.2 :=
  Reachable.remove_head none 0 _ _ none true
    (Reachable.insert_head (some [97]) (some 1) true _ _ true
      (Reachable.new emptyMem { head := none, tail := none, size := 0 } rfl)
      (fun _ _ => rfl) rfl) rfl

/-- C4: when `q_insert_head(q, s)` succeeds and is followed at once by
`q_remove_head(q, buf, n)` with `n > strlen(s)`, the remove returns true, the
buffer holds the bytes of `s` followed by NUL (the string read from it is `s`),
and the nodes, the head link and the count are the ones before the insert, so
the node and string sequences are unchanged. -/
theorem q_insert_head_remove_head_roundtrip (m : Mem) (q : queue_t) (s : List Nat) (nh : Ptr)
    (buf : Buf) (n : Nat) (hs : ∀ b ∈ s, b ≠ 0) (hfresh : m.nodes nh = none)
    (hlen : s.length < n) (hn : n < SIZE_MOD) :
    ∃ m1 q1 m2 q2 buf2,
      q_insert_head m (some q) (some s) (some nh) true = (m1, some q1, true) ∧
      q_remove_head m1 (some q1) (some buf) n = some (m2, some q2, some buf2, true) ∧
      (∀ i : Nat, i < s.length → buf2 (i : Int) = s.getD i 0) ∧ buf2 (s.length : Int) = 0 ∧
      readStr buf2 n = s ∧
      m2.nodes = m.nodes ∧ q2.head = q.head ∧ q2.size = q.size ∧
      q_size (some q2) = q_size (some q) ∧
      (∀ ps, IsList m.nodes q.head ps →
        IsList m2.nodes q2.head ps ∧ values m2.nodes ps = values m.nodes ps) := by
  have hnodes : Function.update (Function.update m.nodes nh
      (some { value := copy_string s, next := q.head })) nh none = m.nodes := by
    funext x
    by_cases hx : x = nh
    · subst hx; simp [hfresh]
    · simp [Function.update, hx]
  have hbuf : ∀ i : Nat, i ≤ s.length →
      store (strncpy buf s (n - 1)) ((n : Int) - 1) 0 (i : Int) = s.getD i 0 := by
    intro i hi
    by_cases hlast : i < n - 1
    · exact out_buf_low buf s i hlast
    · have hcast : (i : Int) = (n : Int) - 1 := by omega
      rw [hcast, out_buf_last, List.getD_eq_default]
      omega
  refine ⟨_, _,
    { nodes := Function.update (Function.update m.nodes nh
        (some { value := copy_string s, next := q.head })) nh none,
      mallocs := m.mallocs + 2, frees := m.frees + 2 },
    { head := q.head,
      tail := (if q.size = 0 then ({ q with head := some nh, tail := some nh } : queue_t)
        else { q with head := some nh }).tail,
      size := q.size + 1 - 1 },
    store (strncpy buf s (n - 1)) ((n : Int) - 1) 0, rfl, ?_, ?_, ?_, ?_, hnodes, rfl, ?_, ?_, ?_⟩
  · simp only [q_remove_head, Function.update_same]
    rw [size_sub_one (by omega) hn, copy_string_eq s hs]
    by_cases h0 : q.size = 0 <;> simp [h0]
  · intro i hi
    exact hbuf i (le_of_lt hi)
  · have := hbuf s.length le_rfl
    rw [this, List.getD_eq_default _ _ le_rfl]
  · exact readStr_out_buf buf s hs hlen
  · show q.size + 1 - 1 = q.size
    omega
  · show q.size + 1 - 1 = q.size
    omega
  · intro ps hl
    show IsList (Function.update (Function.update m.nodes nh _) nh none) q.head ps ∧
      values (Function.update (Function.update m.nodes nh _) nh none) ps = _
    rw [hnodes]
    exact ⟨hl, rfl⟩

/-- Witness for C4: inserting "apple" at the head of the three-fruit queue and
removing it with a 6-byte buffer. -/
theorem q_insert_head_remove_head_roundtrip_witness :
    ∃ m1 q1 m2 q2 buf2,
      q_insert_head fruits.1 (some fruits.2) (some apple) (some 7) true =
        (m1, some q1, true) ∧
      q_remove_head m1 (some q1) (some uninit) 6 = some (m2, some q2, some buf2, true) ∧
      readStr buf2 6 = apple ∧ m2.nodes = fruits.1.nodes ∧ q2.head = fruits.2.head ∧
      q2.size = fruits.2.size :=
  match q_insert_head_remove_head_roundtrip fruits.1 fruits.2 apple 7 uninit 6 (by decide) rfl
      (by decide) (by decide) with
  | ⟨m1, q1, m2, q2, buf2, h1, h2, _, _, h3, h4, h5, h6, _⟩ =>
    ⟨m1, q1, m2, q2, buf2, h1, h2, h3, h4, h5, h6⟩

/-- C5: on a non-empty well-formed queue with nodes `a :: ps`, `q_remove_head`
returns true and leaves the nodes `ps` with their strings and the count lowered
by exactly one; the memory and queue after the call are the same for every
buffer argument and every `bufsize`. -/
theorem q_remove_head_pops (m : Mem) (q : queue_t) (a : Ptr) (ps : List Ptr)
    (hwf : WF m q (a :: ps)) (sp : Option Buf) (bufsize : Nat) :
    ∃ m2 q2 sp2, q_remove_head m (some q) sp bufsize = some (m2, some q2, sp2, true) ∧
      IsList m2.nodes q2.head ps ∧
      values m.nodes (a :: ps) = valueAt m.nodes a :: values m2.nodes ps ∧
      q2.size = q.size - 1 ∧ q_size (some q2) = (ps.length : Int) ∧
      (sp = none → sp2 = none) ∧
      (∀ (sp3 : Option Buf) (bufsize3 : Nat), ∃ sp4,
        q_remove_head m (some q) sp3 bufsize3 = some (m2, some q2, sp4, true)) := by
  obtain ⟨m2, q2, nd, hnd1, hrun, hm2, hq2, hl, hsz, _, hvals⟩ :=
    q_remove_head_spec sp bufsize hwf
  refine ⟨m2, q2, _, hrun, hl, ?_, ?_, hsz, ?_, ?_⟩
  · rw [hvals]; rfl
  · rw [hq2]
  · rintro rfl; rfl
  · intro sp3 bufsize3
    obtain ⟨m3, q3, nd3, hnd3, hrun3, hm3, hq3, _⟩ := q_remove_head_spec sp3 bufsize3 hwf
    have hnd : nd3 = nd := by
      rw [hnd1] at hnd3
      exact (Option.some.inj hnd3).symm
    subst hnd
    rw [hm2, ← hm3, hq2, ← hq3]
    exact ⟨_, hrun3⟩

/-- Witness for C5: removing the head of the three-fruit queue without a buffer. -/
theorem q_remove_head_pops_witness :
    ∃ m2 q2 sp2, q_remove_head fruits.1 (some fruits.2) none 0 =
        some (m2, some q2, sp2, true) ∧
      IsList m2.nodes q2.head [2, 3] ∧ q2.size = fruits.2.size - 1 ∧
      ∃ sp4, q_remove_head fruits.1 (some fruits.2) (some uninit) 4 =
        some (m2, some q2, sp4, true) :=
  match q_remove_head_pops fruits.1 fruits.2 1 [2, 3] wf_fruits none 0 with
  | ⟨m2, q2, sp2, h1, h2, _, h3, _, _, h4⟩ => ⟨m2, q2, sp2, h1, h2, h3, h4 (some uninit) 4⟩

/-- C6: on a non-empty well-formed queue whose head string is `v`, with a buffer
of capacity `n >= 1`, `q_remove_head` leaves in the buffer the first
`min (strlen v) (n-1)` bytes of `v` followed by a NUL byte, the byte at index
`n-1` is NUL, and no byte outside the indices `0 .. n-1` is changed. -/
theorem q_remove_head_buffer (m : Mem) (q : queue_t) (a : Ptr) (ps : List Ptr)
    (hwf : WF m q (a :: ps)) (buf : Buf) (n : Nat) (h1 : 1 ≤ n) (hn : n < SIZE_MOD) :
    ∃ m2 q2 buf2, q_remove_head m (some q) (some buf) n =
        some (m2, some q2, some buf2, true) ∧
      (∀ i : Nat, i < min (valueAt m.nodes a).length (n - 1) →
        buf2 (i : Int) = (valueAt m.nodes a).getD i 0) ∧
      buf2 ((min (valueAt m.nodes a).length (n - 1) : Nat) : Int) = 0 ∧
      buf2 ((n : Int) - 1) = 0 ∧
      (∀ i : Int, (i < 0 ∨ (n : Int) ≤ i) → buf2 i = buf i) ∧
      ((∀ b ∈ valueAt m.nodes a, b ≠ 0) →
        readStr buf2 n = (valueAt m.nodes a).take (n - 1)) := by
  obtain ⟨m2, q2, nd, hnd, hrun, _⟩ := q_remove_head_spec (some buf) n hwf
  have hva : valueAt m.nodes a = nd.value := by simp [valueAt, hnd]
  rw [size_sub_one h1 hn] at hrun
  rw [hva]
  refine ⟨m2, q2, store (strncpy buf nd.value (n - 1)) ((n : Int) - 1) 0, hrun, ?_, ?_,
    out_buf_last buf nd.value n, ?_, ?_⟩
  · intro i hi
    exact out_buf_low buf nd.value i (lt_of_lt_of_le hi (min_le_right _ _))
  · by_cases hlt : nd.value.length < n - 1
    · rw [min_eq_left (le_of_lt hlt), out_buf_low buf nd.value _ hlt,
        List.getD_eq_default _ _ le_rfl]
    · rw [min_eq_right (Nat.le_of_not_lt hlt)]
      have hcast : ((n - 1 : Nat) : Int) = (n : Int) - 1 := by omega
      rw [hcast, out_buf_last]
  · intro i hi
    exact out_buf_frame buf nd.value h1 i hi
  · intro hnz
    have heq : store (strncpy buf nd.value (n - 1)) ((n : Int) - 1) 0 =
        store (strncpy buf (nd.value.take (n - 1)) (n - 1)) ((n : Int) - 1) 0 := by
      funext i
      simp only [store, strncpy]
      by_cases hi1 : i = (n : Int) - 1
      · simp [hi1]
      · by_cases hi2 : 0 ≤ i ∧ i < ((n - 1 : Nat) : Int)
        · rw [if_neg hi1, if_neg hi1, if_pos hi2, if_pos hi2]
          have hlt : i.toNat < n - 1 := by omega
          simp only [List.getD_eq_getElem?_getD, List.getElem?_take, hlt, if_true]
        · rw [if_neg hi1, if_neg hi1, if_neg hi2, if_neg hi2]
    rw [heq]
    exact readStr_out_buf buf _ (fun b hb => hnz b (List.mem_of_mem_take hb))
      (by rw [List.length_take]; omega)

/-- Witness for C6: removing "banana" from the three-fruit queue into a 4-byte
buffer leaves "ban" and a NUL at index 3, and index 4 keeps its old byte. -/
theorem q_remove_head_buffer_witness :
    valueAt fruits.1.nodes 1 = banana ∧
    ∃ m2 q2 buf2, q_remove_head fruits.1 (some fruits.2) (some uninit) 4 =
        some (m2, some q2, some buf2, true) ∧
      buf2 0 = 98 ∧ buf2 1 = 97 ∧ buf2 2 = 110 ∧ buf2 3 = 0 ∧ buf2 4 = 170 ∧
      readStr buf2 4 = [98, 97, 110] :=
  ⟨by decide,
    match q_remove_head_buffer fruits.1 fruits.2 1 [2, 3] wf_fruits uninit 4 (by decide)
        (by decide) with
    | ⟨m2, q2, buf2, h1, h2, _, h3, h4, h5⟩ =>
      ⟨m2, q2, buf2, h1, h2 0 (by decide), h2 1 (by decide), h2 2 (by decide), h3,
        h4 4 (by decide), h5 (by decide)⟩⟩

theorem wf_emptied : WF emptied.1 emptied.2 [] := ⟨rfl, rfl, fun h => absurd rfl h⟩

/-- C7: on an absent or well-formed queue `q_remove_head` returns, it returns
false exactly when the queue is absent or empty (its head is `NULL`, equivalently
`q_size` is 0), and when it returns false the memory, the queue (sequence, head,
tail, count) and the output buffer are unchanged. -/
theorem q_remove_head_false_iff (m : Mem) (q : Option queue_t) (sp : Option Buf)
    (bufsize : Nat) (hwf : ∀ qv, q = some qv → ∃ ps, WF m qv ps) :
    ∃ m2 q2 sp2 b, q_remove_head m q sp bufsize = some (m2, q2, sp2, b) ∧
      (b = false ↔ (q = none ∨ ∃ qv, q = some qv ∧ qv.head = none)) ∧
      (b = false ↔ q_size q = 0) ∧
      (b = false → m2 = m ∧ q2 = q ∧ sp2 = sp ∧ q_size q2 = q_size q) := by
  cases q with
  | none => exact ⟨m, none, sp, false, rfl, by simp, by simp [q_size], fun _ => ⟨rfl, rfl, rfl, rfl⟩⟩
  | some qv =>
    obtain ⟨ps, hwf1⟩ := hwf qv rfl
    cases ps with
    | nil =>
      have hh : qv.head = none := hwf1.1
      have hs : qv.size = 0 := by simpa using hwf1.2.1
      exact ⟨m, some qv, sp, false, by simp [q_remove_head, hh], by simp [hh],
        by simp [q_size, hs], fun _ => ⟨rfl, rfl, rfl, rfl⟩⟩
    | cons a as =>
      obtain ⟨m2, q2, nd, _, hrun, _⟩ := q_remove_head_spec sp bufsize hwf1
      have hh : qv.head = some a := hwf1.1.1
      have hs : qv.size ≠ 0 := by
        rw [hwf1.2.1]
        simp only [List.length_cons]
        omega
      exact ⟨m2, some q2, _, true, hrun, by simp [hh], by simp [q_size, hs],
        fun h => absurd h (by simp)⟩

/-- Witness for C7: `q_remove_head` on the emptied queue returns false and changes
nothing. -/
theorem q_remove_head_false_iff_witness :
    ∃ m2 q2 sp2, q_remove_head emptied.1 (some emptied.2) (some uninit) 4 =
        some (m2, q2, sp2, false) ∧
      m2 = emptied.1 ∧ q2 = some emptied.2 ∧ sp2 = some uninit :=
  match q_remove_head_false_iff emptied.1 (some emptied.2) (some uninit) 4
      (fun _ hq => ⟨[], Option.some.inj hq ▸ wf_emptied⟩) with
  | ⟨m2, q2, sp2, b, h1, h2, _, h3⟩ =>
    have hb : b = false := h2.mpr (Or.inr ⟨emptied.2, rfl, rfl⟩)
    ⟨m2, q2, sp2, hb ▸ h1, (h3 hb).1, (h3 hb).2.1, (h3 hb).2.2.1⟩

/-- C9: with the allocator as an oracle, `q_insert_head` and `q_insert_tail` (on
an absent or well-formed queue) return false exactly when `q` is absent, `s` is
absent, the node allocation fails or the string allocation fails; when they
return false the live nodes and the queue (sequence, head, tail, count) are as
before the call; and when only the string allocation failed, the node block
that was handed out has been released (one more malloc, one more free). -/
theorem q_insert_false_iff (m : Mem) (q : Option queue_t) (s : Option (List Nat))
    (newh : Option Ptr) (strAlloc : Bool) (hwf : ∀ qv, q = some qv → ∃ ps, WF m qv ps)
    (hfresh : ∀ nh, newh = some nh → m.nodes nh = none) :
    (∃ m2 q2 b, q_insert_head m q s newh strAlloc = (m2, q2, b) ∧
      (b = false ↔ (q = none ∨ s = none ∨ newh = none ∨ strAlloc = false)) ∧
      (b = false → m2.nodes = m.nodes ∧ q2 = q ∧
        ((q = none ∨ s = none ∨ newh = none) → m2 = m) ∧
        ((q ≠ none ∧ s ≠ none ∧ newh ≠ none) →
          m2.mallocs = m.mallocs + 1 ∧ m2.frees = m.frees + 1))) ∧
    (∃ m2 q2 b, q_insert_tail m q s newh strAlloc = some (m2, q2, b) ∧
      (b = false ↔ (q = none ∨ s = none ∨ newh = none ∨ strAlloc = false)) ∧
      (b = false → m2.nodes = m.nodes ∧ q2 = q ∧
        ((q = none ∨ s = none ∨ newh = none) → m2 = m) ∧
        ((q ≠ none ∧ s ≠ none ∧ newh ≠ none) →
          m2.mallocs = m.mallocs + 1 ∧ m2.frees = m.frees + 1))) := by
  cases q with
  | none =>
    exact ⟨⟨m, none, false, rfl, by simp, fun _ => ⟨rfl, rfl, fun _ => rfl, by simp⟩⟩,
      ⟨m, none, false, rfl, by simp, fun _ => ⟨rfl, rfl, fun _ => rfl, by simp⟩⟩⟩
  | some qv =>
    cases s with
    | none =>
      exact ⟨⟨m, some qv, false, rfl, by simp, fun _ => ⟨rfl, rfl, fun _ => rfl, by simp⟩⟩,
        ⟨m, some qv, false, rfl, by simp, fun _ => ⟨rfl, rfl, fun _ => rfl, by simp⟩⟩⟩
    | some sv =>
      cases newh with
      | none =>
        exact ⟨⟨m, some qv, false, rfl, by simp, fun _ => ⟨rfl, rfl, fun _ => rfl, by simp⟩⟩,
          ⟨m, some qv, false, rfl, by simp, fun _ => ⟨rfl, rfl, fun _ => rfl, by simp⟩⟩⟩
      | some nh =>
        cases strAlloc with
        | false =>
          exact ⟨⟨{ m with mallocs := m.mallocs + 1, frees := m.frees + 1 }, some qv, false,
              rfl, by simp, fun _ => ⟨rfl, rfl, by simp, fun _ => ⟨rfl, rfl⟩⟩⟩,
            ⟨{ m with mallocs := m.mallocs + 1, frees := m.frees + 1 }, some qv, false,
              rfl, by simp, fun _ => ⟨rfl, rfl, by simp, fun _ => ⟨rfl, rfl⟩⟩⟩⟩
        | true =>
          obtain ⟨ps, hwf1⟩ := hwf qv rfl
          obtain ⟨m2, q2, hrun, _⟩ := q_insert_head_spec sv hwf1 (hfresh nh rfl)
          obtain ⟨m3, q3, hrun3, _⟩ := q_insert_tail_spec sv hwf1 (hfresh nh rfl)
          exact ⟨⟨m2, some q2, true, hrun, by simp, fun h => absurd h (by simp)⟩,
            ⟨m3, some q3, true, hrun3, by simp, fun h => absurd h (by simp)⟩⟩

/-- Witness for C9: on the three-fruit queue, an insert whose string allocation
fails returns false, leaves the nodes and the queue as they were, and has
released the node block. -/
theorem q_insert_false_iff_witness :
    (∃ m2 q2, q_insert_head fruits.1 (some fruits.2) (some apple) (some 7) false =
        (m2, q2, false) ∧ m2.nodes = fruits.1.nodes ∧ q2 = some fruits.2 ∧
      m2.mallocs = fruits.1.mallocs + 1 ∧ m2.frees = fruits.1.frees + 1) ∧
    (∃ m2 q2, q_insert_tail fruits.1 (some fruits.2) (some apple) (some 7) false =
        some (m2, q2, false) ∧ m2.nodes = fruits.1.nodes ∧ q2 = some fruits.2 ∧
      m2.mallocs = fruits.1.mallocs + 1 ∧ m2.frees = fruits.1.frees + 1) :=
  match q_insert_false_iff fruits.1 (some fruits.2) (some apple) (some 7) false
      (fun _ hq => ⟨[1, 2, 3], Option.some.inj hq ▸ wf_fruits⟩)
      (fun _ hnh => Option.some.inj hnh ▸ rfl) with
  | ⟨⟨m2, q2, b, h1, h2, h3⟩, ⟨m3, q3, b3, h4, h5, h6⟩⟩ =>
    have hb : b = false := h2.mpr (Or.inr (Or.inr (Or.inr rfl)))
    have hb3 : b3 = false := h5.mpr (Or.inr (Or.inr (Or.inr rfl)))
    ⟨⟨m2, q2, hb ▸ h1, (h3 hb).1, (h3 hb).2.1,
        (h3 hb).2.2.2 ⟨by simp, by simp, by simp⟩⟩,
      ⟨m3, q3, hb3 ▸ h4, (h6 hb3).1, (h6 hb3).2.1,
        (h6 hb3).2.2.2 ⟨by simp, by simp, by simp⟩⟩⟩

/-! ## Runs of calls -/

theorem wf_size_zero_head {m : Mem} {q : queue_t} {ps : List Ptr} (hwf : WF m q ps)
    (h0 : q.size = 0) : q.head = none := by
  have hlen : ps.length = 0 := by
    have := hwf.2.1
    rw [h0] at this
    exact_mod_cast this.symm
  have hps : ps = [] := List.length_eq_zero.mp hlen
  subst hps
  exact hwf.1

/-- C10, as the code has it: `q_new` yields a queue with count 0 and both `head`
and `tail` absent; every queue that the public operations produce from it has
`head` absent whenever its count is 0; and `q_remove_head` never changes `tail`. -/
theorem count_zero_head_absent (m : Mem) (q : queue_t) (hr : Reachable m q) :
    (∀ m0 q0, (q_new m0 true).2 = some q0 → q0.size = 0 ∧ q0.head = none ∧ q0.tail = none) ∧
    (q.size = 0 → q.head = none) ∧
    (∀ sp bufsize m2 q2 sp2 b,
      q_remove_head m (some q) sp bufsize = some (m2, some q2, sp2, b) →
        q2.tail = q.tail ∧ (q2.size = 0 → q2.head = none)) := by
  refine ⟨?_, ?_, ?_⟩
  · intro m0 q0 h
    simp [q_new] at h
    subst h
    exact ⟨rfl, rfl, rfl⟩
  · obtain ⟨ps, hwf⟩ := reachable_wf hr
    exact wf_size_zero_head hwf
  · intro sp bufsize m2 q2 sp2 b hrun
    obtain ⟨ps2, hwf2⟩ := reachable_wf (Reachable.remove_head sp bufsize m2 q2 sp2 b hr hrun)
    refine ⟨?_, wf_size_zero_head hwf2⟩
    unfold q_remove_head at hrun
    simp only at hrun
    cases hh : q.head with
    | none =>
      simp [hh] at hrun
      rw [hrun.2.1]
    | some a =>
      simp only [hh] at hrun
      cases hn : m.nodes a with
      | none => simp [hn] at hrun
      | some nd =>
        simp [hn] at hrun
        rw [← hrun.2.1]

/-- Witness for the amended C10: the queue emptied by `q_remove_head` has count 0
and an absent `head`. -/
theorem count_zero_head_absent_witness :
    Reachable emptied.1 emptied.2 ∧ emptied.2.size = 0 ∧ emptied.2.head = none :=
  ⟨reachable_emptied, rfl,
    (count_zero_head_absent emptied.1 emptied.2 reachable_emptied).2.1 rfl⟩

/-- Counterexample to C10 as stated: after `q_new`, one `q_insert_head` and one
`q_remove_head`, the count is 0 and `head` is absent, but `tail` still holds the
address of the removed node. -/
theorem q_remove_head_keeps_tail :
    ∃ m1 q1 m2 q2,
      q_insert_head (q_new emptyMem true).1 (q_new emptyMem true).2 (some [97]) (some 1) true =
        (m1, some q1, true) ∧ q1.size = 1 ∧
      q_remove_head m1 (some q1) none 0 = some (m2, some q2, none, true) ∧
      q2.size = 0 ∧ q2.head = none ∧ q2.tail = some 1 ∧
      ¬ (q2.size = 0 → q2.head = none ∧ q2.tail = none) :=
  ⟨_, _, _, _, rfl, rfl, rfl, rfl, rfl, rfl, fun h => by
    have := (h rfl).2
    exact absurd this (by decide)⟩

theorem wf_single : WF single.1 single.2 [1] :=
  ⟨⟨rfl, _, rfl, rfl⟩, rfl, fun _ => rfl⟩

/-- C11: `q_sort` on an absent queue, on an empty queue, and (with fuel for one
step) on a queue of exactly one element returns with the memory and the queue
unchanged: same nodes, same `head`, `tail` and count. -/
theorem q_sort_noop (m : Mem) (fuel : Nat) :
    q_sort fuel m none = some (m, none) ∧
    (∀ q, WF m q [] → q_sort fuel m (some q) = some (m, some q)) ∧
    (∀ q a, WF m q [a] → 1 ≤ fuel → q_sort fuel m (some q) = some (m, some q)) := by
  refine ⟨rfl, ?_, ?_⟩
  · intro q hwf
    have hh : q.head = none := hwf.1
    simp [q_sort, hh]
  · intro q a hwf hfuel
    obtain ⟨f, rfl⟩ : ∃ f, fuel = f + 1 := ⟨fuel - 1, by omega⟩
    obtain ⟨⟨hh, nd, hnd, hnext⟩, _, htl⟩ := hwf
    have hnone : nd.next = none := hnext
    have ht : q.tail = some a := by simpa using htl (by simp)
    cases q with
    | mk head tail size =>
      simp only at hh ht
      subst hh ht
      simp [q_sort, list_mergesort, tail_walk, hnd, hnone]

/-- Witness for C11: sorting the emptied queue and the one-element queue changes
nothing. -/
theorem q_sort_noop_witness :
    q_sort 1 emptied.1 (some emptied.2) = some (emptied.1, some emptied.2) ∧
    q_sort 1 single.1 (some single.2) = some (single.1, some single.2) :=
  ⟨(q_sort_noop emptied.1 1).2.1 emptied.2 wf_emptied,
    (q_sort_noop single.1 1).2.2 single.2 1 wf_single (by decide)⟩

/-- C12, evaluated on the code: with a provided buffer of capacity 0,
`q_remove_head` on the queue "a", "b", "c" calls `strncpy` with the length
`2^64 - 1` and stores the terminator at offset `-1`: the bytes at offsets 0 and
1 and the byte before the buffer are overwritten. -/
theorem q_remove_head_capacity_zero :
    ∃ m2 q2 buf2, q_remove_head abc.1 (some abc.2) (some uninit) 0 =
        some (m2, some q2, some buf2, true) ∧
      (0 + SIZE_MOD - 1) % SIZE_MOD = 18446744073709551615 ∧
      uninit 0 = 170 ∧ buf2 0 = 97 ∧ uninit 1 = 170 ∧ buf2 1 = 0 ∧
      uninit (-1) = 170 ∧ buf2 (-1) = 0 :=
  ⟨_, _, _, rfl, by decide, rfl, by decide, rfl, by decide, rfl, by decide⟩

/-! ## Destruction -/

theorem q_free_loop_spec : ∀ (ps : List Ptr) (fuel : Nat) (m : Mem) (head : Option Ptr),
    IsList m.nodes head ps → ps.length < fuel →
    ∃ m2, q_free_loop fuel m head = some m2 ∧ m2.mallocs = m.mallocs ∧
      m2.frees = m.frees + 2 * ps.length ∧
      (∀ x, m2.nodes x = if x ∈ ps then none else m.nodes x)
  | [], fuel, m, head, hl, hfuel => by
    obtain ⟨f, rfl⟩ : ∃ f, fuel = f + 1 := ⟨fuel - 1, by omega⟩
    have : head = none := hl
    subst this
    exact ⟨m, rfl, rfl, rfl, by simp⟩
  | a :: as, fuel, m, head, hl, hfuel => by
    obtain ⟨f, rfl⟩ : ∃ f, fuel = f + 1 := ⟨fuel - 1, by omega⟩
    have ha : a ∉ as := (List.nodup_cons.mp (isList_nodup hl)).1
    obtain ⟨hh, nd, hnd, hrest⟩ := hl
    subst hh
    obtain ⟨m2, hrun, hm, hf, hn⟩ := q_free_loop_spec as f
      { m with nodes := Function.update m.nodes a none, frees := m.frees + 2 } nd.next
      (isList_update _ ha hrest) (by simp at hfuel; omega)
    refine ⟨m2, by simp [q_free_loop, hnd, hrun], hm, ?_, ?_⟩
    · rw [hf]
      simp only [List.length_cons]
      omega
    · intro x
      rw [hn x]
      by_cases hx : x = a
      · subst hx
        simp [ha]
      · by_cases hxs : x ∈ as
        · simp [hxs]
        · simp [hx, hxs, Function.update]

theorem ins_step_spec {m : Mem} {q : queue_t} {ps : List Ptr} (hwf : WF m q ps) (i : Ins)
    (hfresh : ∀ nh, i.newh = some nh → m.nodes nh = none) :
    ∃ m1 q1 ps1 b, ins_step m (some q) i = some (m1, some q1, b) ∧ WF m1 q1 ps1 ∧
      (∀ x ∈ ps, x ∈ ps1) ∧ (∀ x ∈ ps1, x ∈ ps ∨ m.nodes x = none) ∧
      (∀ x, x ∉ ps1 → m1.nodes x = m.nodes x) ∧ ps1.length ≤ ps.length + 1 ∧
      m1.mallocs + m.frees + 2 * ps.length = m.mallocs + m1.frees + 2 * ps1.length := by
  obtain ⟨atHead, s, newh, strAlloc⟩ := i
  have hsame : ∀ (m1 : Mem), m1.nodes = m.nodes → m1.mallocs + m.frees = m.mallocs + m1.frees →
      ∀ b, ins_step m (some q) ⟨atHead, s, newh, strAlloc⟩ = some (m1, some q, b) →
      ∃ m1 q1 ps1 b, ins_step m (some q) ⟨atHead, s, newh, strAlloc⟩ =
          some (m1, some q1, b) ∧ WF m1 q1 ps1 ∧
        (∀ x ∈ ps, x ∈ ps1) ∧ (∀ x ∈ ps1, x ∈ ps ∨ m.nodes x = none) ∧
        (∀ x, x ∉ ps1 → m1.nodes x = m.nodes x) ∧ ps1.length ≤ ps.length + 1 ∧
        m1.mallocs + m.frees + 2 * ps.length = m.mallocs + m1.frees + 2 * ps1.length := by
    intro m1 hn hc b hrun
    exact ⟨m1, q, ps, b, hrun, wf_congr hn hwf, fun _ hx => hx, fun _ hx => Or.inl hx,
      fun x _ => by rw [hn], by omega, by omega⟩
  cases s with
  | none =>
    cases atHead <;> exact hsame m rfl rfl false (by simp [ins_step, q_insert_head, q_insert_tail])
  | some sv =>
    cases newh with
    | none =>
      cases atHead <;>
        exact hsame m rfl rfl false (by simp [ins_step, q_insert_head, q_insert_tail])
    | some nh =>
      cases strAlloc with
      | false =>
        cases atHead <;>
          exact hsame { m with mallocs := m.mallocs + 1, frees := m.frees + 1 } rfl
            (by simp only; omega) false (by simp [ins_step, q_insert_head, q_insert_tail])
      | true =>
        have hnh : m.nodes nh = none := hfresh nh rfl
        cases atHead with
        | true =>
          obtain ⟨m1, q1, hrun, hwf1, _, _, hmal, hfr, hframe⟩ := q_insert_head_spec sv hwf hnh
          refine ⟨m1, q1, nh :: ps, true, by simp [ins_step, hrun], hwf1,
            fun x hx => List.mem_cons_of_mem _ hx, ?_, ?_, by simp, ?_⟩
          · intro x hx
            rcases List.mem_cons.mp hx with rfl | hx
            · exact Or.inr hnh
            · exact Or.inl hx
          · intro x hx
            exact hframe x (fun e => hx (by simp [e]))
          · rw [hmal, hfr]
            simp only [List.length_cons]
            omega
        | false =>
          obtain ⟨m1, q1, hrun, hwf1, _, _, hmal, hfr, hframe⟩ := q_insert_tail_spec sv hwf hnh
          refine ⟨m1, q1, ps ++ [nh], true, by simp [ins_step, hrun], hwf1,
            fun x hx => List.mem_append_left _ hx, ?_, ?_, by simp, ?_⟩
          · intro x hx
            rcases List.mem_append.mp hx with hx | hx
            · exact Or.inl hx
            · simp only [List.mem_singleton] at hx
              subst hx
              exact Or.inr hnh
          · intro x hx
            exact hframe x (fun e => hx (by simp [e])) (fun e => hx (List.mem_append_left _ e))
          · rw [hmal, hfr]
            simp only [List.length_append, List.length_cons, List.length_nil]
            omega

theorem run_inserts_spec (m0 : Mem) : ∀ (ins : List Ins) (m : Mem) (q : queue_t)
    (ps : List Ptr), WF m q ps → InsFresh m (some q) ins →
    (∀ x ∈ ps, m0.nodes x = none) → (∀ x, x ∉ ps → m.nodes x = m0.nodes x) →
    ∃ m2 q2 ps2, run_inserts m (some q) ins = some (m2, some q2) ∧ WF m2 q2 ps2 ∧
      (∀ x ∈ ps2, m0.nodes x = none) ∧ (∀ x, x ∉ ps2 → m2.nodes x = m0.nodes x) ∧
      ps2.length ≤ ps.length + ins.length ∧
      m2.mallocs + m.frees + 2 * ps.length = m.mallocs + m2.frees + 2 * ps2.length
  | [], m, q, ps, hwf, _, hdead, hframe =>
    ⟨m, q, ps, rfl, hwf, hdead, hframe, by simp, by omega⟩
  | i :: rest, m, q, ps, hwf, hfr, hdead, hframe => by
    obtain ⟨hfresh, hnext⟩ := hfr
    obtain ⟨m1, q1, ps1, b, hstep, hwf1, hsub, hnew, hfr1, hlen1, hcnt1⟩ :=
      ins_step_spec hwf i hfresh
    have hdead1 : ∀ x ∈ ps1, m0.nodes x = none := by
      intro x hx
      by_cases hxp : x ∈ ps
      · exact hdead x hxp
      · rcases hnew x hx with h | h
        · exact absurd h hxp
        · rw [← hframe x hxp]
          exact h
    have hframe1 : ∀ x, x ∉ ps1 → m1.nodes x = m0.nodes x := by
      intro x hx
      rw [hfr1 x hx]
      exact hframe x (fun e => hx (hsub x e))
    obtain ⟨m2, q2, ps2, hrun, hwf2, hdead2, hframe2, hlen2, hcnt2⟩ :=
      run_inserts_spec m0 rest m1 q1 ps1 hwf1 (hnext m1 (some q1) b hstep) hdead1 hframe1
    refine ⟨m2, q2, ps2, by simp [run_inserts, hstep, hrun], hwf2, hdead2, hframe2, ?_, ?_⟩
    · simp only [List.length_cons]
      omega
    · omega

theorem run_inserts_none (m : Mem) : ∀ (ins : List Ins),
    run_inserts m none ins = some (m, none)
  | [] => rfl
  | i :: rest => by
    have hstep : ins_step m none i = some (m, none, false) := by
      unfold ins_step
      cases i.atHead <;> simp [q_insert_head, q_insert_tail]
    simp [run_inserts, hstep, run_inserts_none m rest]

/-- C13: with the allocator's counters, `q_new` followed by any inserts (at head
or tail, successful or failing at either allocation) runs to its end, and
`q_free` (given enough fuel) then returns with as many blocks released since the
start as were allocated since the start and with the live nodes of the start:
no node of the queue stays live.  `q_free` of an absent queue returns the
memory unchanged. -/
theorem q_free_balanced (m0 : Mem) (alloc : Bool) (ins : List Ins)
    (hfresh : InsFresh (q_new m0 alloc).1 (q_new m0 alloc).2 ins) :
    (∃ m1 q1, run_inserts (q_new m0 alloc).1 (q_new m0 alloc).2 ins = some (m1, q1) ∧
      ∀ fuel, ins.length < fuel → ∃ m2, q_free fuel m1 q1 = some m2 ∧
        m2.mallocs + m0.frees = m0.mallocs + m2.frees ∧ m2.nodes = m0.nodes) ∧
    (∀ fuel m, q_free fuel m none = some m) := by
  refine ⟨?_, fun _ _ => rfl⟩
  cases alloc with
  | false =>
    refine ⟨m0, none, run_inserts_none m0 ins, ?_⟩
    intro fuel _
    exact ⟨m0, rfl, rfl, rfl⟩
  | true =>
    have hwf0 : WF (q_new m0 true).1 { head := none, tail := none, size := 0 } [] :=
      ⟨rfl, rfl, fun h => absurd rfl h⟩
    obtain ⟨m1, q1, ps1, hrun, hwf1, hdead, hframe, hlen, hcnt⟩ :=
      run_inserts_spec m0 ins _ _ [] hwf0 hfresh (by simp) (fun _ _ => rfl)
    refine ⟨m1, some q1, hrun, ?_⟩
    intro fuel hfuel
    obtain ⟨m2, hfree, hmal, hfr, hnodes⟩ := q_free_loop_spec ps1 fuel m1 q1.head hwf1.1
      (by simp at hlen; omega)
    refine ⟨{ m2 with frees := m2.frees + 1 }, by simp [q_free, hfree], ?_, ?_⟩
    · have h1 : (q_new m0 true).1.mallocs = m0.mallocs + 1 := rfl
      have h2 : (q_new m0 true).1.frees = m0.frees := rfl
      simp only [List.length_nil] at hcnt
      show m2.mallocs + m0.frees = m0.mallocs + (m2.frees + 1)
      omega
    · funext x
      show m2.nodes x = m0.nodes x
      rw [hnodes x]
      by_cases hx : x ∈ ps1
      · simp [hx, hdead x hx]
      · simp [hx, hframe x hx]

theorem insFresh_demo : InsFresh (q_new emptyMem true).1 (q_new emptyMem true).2
    [⟨true, some [97], some 1, true⟩, ⟨false, some [98], some 2, false⟩,
      ⟨false, some [98], some 2, true⟩, ⟨true, none, some 3, true⟩] := by
  refine ⟨fun nh h => by cases h; rfl, ?_⟩
  intro m2 q2 b h
  cases h
  refine ⟨fun nh h => by cases h; rfl, ?_⟩
  intro m2 q2 b h
  cases h
  refine ⟨fun nh h => by cases h; rfl, ?_⟩
  intro m2 q2 b h
  cases h
  refine ⟨fun nh h => by cases h; rfl, ?_⟩
  intro m2 q2 b h
  trivial

/-- Witness for C13: a head insert, a tail insert whose string allocation fails,
a tail insert and an insert of an absent string, then `q_free`: six blocks
allocated, six released, no node live. -/
theorem q_free_balanced_witness :
    (∃ m1 q1, run_inserts (q_new emptyMem true).1 (q_new emptyMem true).2
        [⟨true, some [97], some 1, true⟩, ⟨false, some [98], some 2, false⟩,
          ⟨false, some [98], some 2, true⟩, ⟨true, none, some 3, true⟩] = some (m1, q1) ∧
      ∃ m2, q_free 5 m1 q1 = some m2 ∧ m2.mallocs + emptyMem.frees =
        emptyMem.mallocs + m2.frees ∧ m2.nodes = emptyMem.nodes) ∧
    ((run_inserts (q_new emptyMem true).1 (q_new emptyMem true).2
        [⟨true, some [97], some 1, true⟩, ⟨false, some [98], some 2, false⟩,
          ⟨false, some [98], some 2, true⟩, ⟨true, none, some 3, true⟩]).bind
      (fun r => q_free 5 r.1 r.2)).map (fun m => (m.mallocs, m.frees)) = some (6, 6) :=
  ⟨match (q_free_balanced emptyMem true _ insFresh_demo).1 with
    | ⟨m1, q1, h1, h2⟩ => ⟨m1, q1, h1, h2 5 (by decide)⟩,
    by decide⟩

/-! ## The structural invariant -/

theorem strcmp_neg_pos {a b : List Nat} (h : strcmp a b < 0) : 0 < strcmp b a :=
  (strcmp_pos_iff_lex b a).mpr ((strcmp_neg_iff_lex a b).mp h)

theorem mergeP_tie_order (v : Ptr → List Nat) : ∀ (ls rs : List Ptr),
    SortedStr (rs.map v) → ∀ x ∈ ls, ∀ y ∈ rs, strcmp (v x) (v y) = 0 →
    [y, x].Sublist (mergeP v ls rs)
  | [], _, _, x, hx, _, _, _ => absurd hx (List.not_mem_nil _)
  | _ :: _, [], _, _, _, y, hy, _ => absurd hy (List.not_mem_nil _)
  | a :: as, b :: bs, hs, x, hx, y, hy, htie => by
    have hsc := hs
    unfold SortedStr at hsc
    simp only [List.map_cons, List.pairwise_cons] at hsc
    have hby : strcmp (v b) (v y) ≤ 0 := by
      rcases List.mem_cons.mp hy with rfl | hy2
      · rw [strcmp_self]
      · exact hsc.1 _ (List.mem_map_of_mem _ hy2)
    simp only [mergeP]
    split
    · rename_i hlt
      rcases List.mem_cons.mp hx with rfl | hx2
      · exfalso
        have h1 : strcmp (v y) (v x) ≤ 0 := strcmp_total _ _ (by omega)
        have h2 := strcmp_trans _ _ _ hby h1
        have h3 := strcmp_neg_pos hlt
        omega
      · exact (mergeP_tie_order v as (b :: bs) hs x hx2 y hy htie).cons a
    · rcases List.mem_cons.mp hy with rfl | hy2
      · have hmem : x ∈ mergeP v (a :: as) bs := mem_mergeP.mpr (Or.inl hx)
        exact (List.singleton_sublist.mpr hmem).cons₂ y
      · exact (mergeP_tie_order v (a :: as) bs hsc.2 x hx y hy2 htie).cons b
termination_by ls rs => ls.length + rs.length

/-- C15, as the code has it: when the head strings of two non-empty disjoint lists
compare equal, `list_merge` (given enough fuel) returns the head node of the
RIGHT operand, followed by the merge of the whole left list with the rest of
the right list; and when the right list is sorted, every node of the right
operand comes before every node of the left operand that holds an equal
string. -/
theorem list_merge_tie_takes_right (fuel : Nat) (h : Heap) (a b : Ptr) (as bs : List Ptr)
    (hl : IsList h (some a) (a :: as)) (hr : IsList h (some b) (b :: bs))
    (hdisj : ∀ x ∈ a :: as, x ∉ b :: bs)
    (htie : strcmp (valueAt h a) (valueAt h b) = 0)
    (hfuel : (a :: as).length + (b :: bs).length < fuel) :
    ∃ h2, list_merge fuel h (some a) (some b) = some (h2, some b) ∧
      IsList h2 (some b) (b :: mergeP (valueAt h) (a :: as) bs) ∧
      (SortedStr (values h (b :: bs)) → ∀ x ∈ a :: as, ∀ y ∈ b :: bs,
        strcmp (valueAt h x) (valueAt h y) = 0 →
        [y, x].Sublist (b :: mergeP (valueAt h) (a :: as) bs)) := by
  obtain ⟨h2, p, hrun, hlist, _, _⟩ :=
    list_merge_spec fuel (a :: as) (b :: bs) h (some a) (some b) hl hr hdisj hfuel
  have hm : mergeP (valueAt h) (a :: as) (b :: bs) = b :: mergeP (valueAt h) (a :: as) bs := by
    simp [mergeP, htie]
  rw [hm] at hlist
  have hp : p = some b := hlist.1
  subst hp
  refine ⟨h2, hrun, hlist, ?_⟩
  intro hs x hx y hy hxy
  rw [← hm]
  exact mergeP_tie_order (valueAt h) (a :: as) (b :: bs) hs x hx y hy hxy

/-- Witness for the amended C15: merging the two one-node lists that hold "a". -/
theorem list_merge_tie_takes_right_witness :
    ∃ h2, list_merge 3 tieHeap (some 1) (some 2) = some (h2, some 2) ∧
      IsList h2 (some 2) [2, 1] :=
  match list_merge_tie_takes_right 3 tieHeap 1 2 [] [] ⟨rfl, _, rfl, rfl⟩ ⟨rfl, _, rfl, rfl⟩
      (by decide) (by decide) (by decide) with
  | ⟨h2, h1, hl, _⟩ => ⟨h2, h1, by rw [mergeP_nil_right] at hl; exact hl⟩

/-- Counterexample to C15 as stated: the head strings of the lists `[1]` and `[2]`
compare equal, and the first node of `list_merge(left, right)` is node 2, the
head of the right operand, not node 1. -/
theorem list_merge_tie_not_left :
    IsList tieHeap (some 1) [1] ∧ IsList tieHeap (some 2) [2] ∧
    strcmp (valueAt tieHeap 1) (valueAt tieHeap 2) = 0 ∧
    (list_merge 3 tieHeap (some 1) (some 2)).map Prod.snd = some (some 2) ∧
    (list_merge 3 tieHeap (some 1) (some 2)).bind (fun r => readList 3 r.1 r.2) =
      some [2, 1] ∧
    (list_merge 3 tieHeap (some 1) (some 2)).map Prod.snd ≠ some (some 1) :=
  ⟨⟨rfl, _, rfl, rfl⟩, ⟨rfl, _, rfl, rfl⟩, by decide, by decide, by decide, by decide⟩

/-! ## The split step -/

theorem take_drop_succ_append (l0 : List Ptr) (s : Ptr) (r : List Ptr) :
    (l0 ++ s :: r).take (l0.length + 1) = l0 ++ [s] ∧
      (l0 ++ s :: r).drop (l0.length + 1) = r := by
  induction l0 with
  | nil => simp
  | cons x xs ih => simpa using ih

theorem split_step_spec {h : Heap} (fuel : Nat) (ps : List Ptr) (p : Option Ptr)
    (hl : IsList h p ps) (hlen : 2 ≤ ps.length) (hfuel : ps.length / 2 < fuel) :
    ∃ h1 fast, split_step fuel h p = some (h1, fast) ∧
      IsList h1 p (ps.take ((ps.length + 1) / 2)) ∧
      IsList h1 fast (ps.drop ((ps.length + 1) / 2)) ∧
      SameValues h1 h ∧ (∀ x, x ∉ ps → h1 x = h x) := by
  match ps, hl, hlen, hfuel with
  | [], _, hlen, _ => simp at hlen
  | [_], _, hlen, _ => simp at hlen
  | a :: b :: rest, hl, _, hfuel =>
    have hnodup := isList_nodup hl
    have hl0 := hl
    obtain ⟨hp, hn, hhn, hnext⟩ := hl
    have hb : hn.next = some b := hnext.1
    subst hp
    obtain ⟨r, hscan, hdrop⟩ := split_loop_spec fuel (b :: rest) (a :: b :: rest) (some a)
      hn.next hl0 hnext (by simp) (by simp only [List.length_cons] at hfuel ⊢; omega)
    have hklt : (b :: rest).length / 2 < (a :: b :: rest).length := by
      simp only [List.length_cons]
      omega
    obtain ⟨slow, right, hdr⟩ : ∃ slow right,
        (a :: b :: rest).drop ((b :: rest).length / 2) = slow :: right := by
      cases hd : (a :: b :: rest).drop ((b :: rest).length / 2) with
      | nil =>
        have := congrArg List.length hd
        simp only [List.length_drop, List.length_nil] at this
        omega
      | cons s r => exact ⟨s, r, rfl⟩
    rw [hdr] at hdrop
    obtain ⟨hr, sn, hsn, hright⟩ := hdrop
    subst hr
    have hsplit : (a :: b :: rest) =
        (a :: b :: rest).take ((b :: rest).length / 2) ++ slow :: right := by
      rw [← hdr, List.take_append_drop]
    have hlen0 : ((a :: b :: rest).take ((b :: rest).length / 2)).length =
        (b :: rest).length / 2 := by
      rw [List.length_take]
      omega
    have hk1 : ((a :: b :: rest).length + 1) / 2 =
        ((a :: b :: rest).take ((b :: rest).length / 2)).length + 1 := by
      rw [hlen0]
      simp only [List.length_cons]
      omega
    obtain ⟨htake, hdrop2⟩ := take_drop_succ_append
      ((a :: b :: rest).take ((b :: rest).length / 2)) slow right
    rw [← hsplit, ← hk1] at htake hdrop2
    rw [htake, hdrop2]
    rw [hsplit] at hnodup hl0
    have hslow_l : slow ∉ (a :: b :: rest).take ((b :: rest).length / 2) := by
      intro e
      exact (List.nodup_append.mp hnodup).2.2 e (List.mem_cons_self _ _)
    have hslow_r : slow ∉ right :=
      (List.nodup_cons.mp (List.nodup_append.mp hnodup).2.1).1
    refine ⟨Function.update h slow (some { sn with next := none }), sn.next, ?_, ?_, ?_,
      sameValues_relink hsn none, ?_⟩
    · rw [hb] at hscan
      simp [split_step, hhn, hb, hscan, hsn]
    · refine isList_relink hl0 ?_ (Function.update_same _ _ _) rfl
      intro x hx
      have : x ≠ slow := fun e => hslow_l (e ▸ hx)
      simp [Function.update, this]
    · exact isList_update _ hslow_r hright
    · intro x hx
      have hxs : x ≠ slow := by
        rintro rfl
        apply hx
        rw [hsplit]
        simp
      simp [Function.update, hxs]

theorem list_mergesort_eq_split_step (fuel : Nat) (h : Heap) (hd : Ptr) (hn : list_ele_t)
    (b : Ptr) (hhn : h hd = some hn) (hb : hn.next = some b) :
    list_mergesort (fuel + 1) h (some hd) =
      match split_step fuel h (some hd) with
      | none => none
      | some (h1, fast) =>
        match list_mergesort fuel h1 (some hd) with
        | none => none
        | some (h2, l) =>
          match list_mergesort fuel h2 fast with
          | none => none
          | some (h3, r) => list_merge fuel h3 l r := by
  simp only [list_mergesort, split_step, hhn, hb]
  cases hs : split_loop fuel h (some hd) (some b) with
  | none => rfl
  | some r =>
    cases r with
    | none => rfl
    | some slow =>
      simp only
      cases hsl : h slow with
      | none => rfl
      | some sn => rfl

/-- C16, as the code has it: the split step of `list_mergesort` (given enough
fuel) divides every list of length `n >= 2` into a left half made of the first
`ceil(n/2)` nodes and a right half made of the remaining `floor(n/2)` nodes, so
that when `n` is odd the extra node goes to the LEFT half. -/
theorem split_step_halves (fuel : Nat) (h : Heap) (p : Option Ptr) (ps : List Ptr)
    (hl : IsList h p ps) (hlen : 2 ≤ ps.length) (hfuel : ps.length / 2 < fuel) :
    ∃ h1 fast left right, split_step fuel h p = some (h1, fast) ∧
      IsList h1 p left ∧ IsList h1 fast right ∧
      left = ps.take ((ps.length + 1) / 2) ∧ right = ps.drop ((ps.length + 1) / 2) ∧
      left ++ right = ps ∧
      left.length = (ps.length + 1) / 2 ∧ right.length = ps.length / 2 ∧
      (ps.length % 2 = 1 → left.length = right.length + 1) := by
  obtain ⟨h1, fast, hrun, hleft, hright, _, _⟩ := split_step_spec fuel ps p hl hlen hfuel
  refine ⟨h1, fast, _, _, hrun, hleft, hright, rfl, rfl, List.take_append_drop _ _, ?_, ?_, ?_⟩
  · rw [List.length_take]
    omega
  · rw [List.length_drop]
    omega
  · intro hodd
    rw [List.length_take, List.length_drop]
    omega

/-- Witness for the amended C16: the list of the nodes 1, 2, 3 is split into
`[1, 2]` and `[3]`. -/
theorem split_step_halves_witness :
    ∃ h1 fast, split_step 2 abc.1.nodes abc.2.head = some (h1, fast) ∧
      IsList h1 abc.2.head [1, 2] ∧ IsList h1 fast [3] :=
  match split_step_halves 2 abc.1.nodes abc.2.head [1, 2, 3] wf_abc.1 (by decide)
      (by decide) with
  | ⟨h1, fast, _, _, hrun, hleft, hright, rfl, rfl, _⟩ => ⟨h1, fast, hrun, hleft, hright⟩

/-- Counterexample to C16 as stated: on the list of the nodes 1, 2, 3 the split
step leaves two nodes in the left half and one in the right half, while
`floor(3/2)` is 1. -/
theorem split_step_left_gets_extra :
    IsList abc.1.nodes abc.2.head [1, 2, 3] ∧
    (split_step 2 abc.1.nodes abc.2.head).bind (fun r => readList 3 r.1 abc.2.head) =
      some [1, 2] ∧
    (split_step 2 abc.1.nodes abc.2.head).bind (fun r => readList 3 r.1 r.2) = some [3] ∧
    [1, 2].length ≠ [1, 2, 3].length / 2 :=
  ⟨wf_abc.1, by decide, by decide, by decide⟩

/-- C17: on every finite chain `list_mergesort` returns once the fuel exceeds the
length by two; for a chain of length `n >= 2` the split step returns two
non-empty halves, each strictly shorter than `n`, whose concatenation is the
chain; and `list_merge` of the chain with a disjoint chain returns once the fuel
exceeds the sum of the two lengths. -/
theorem list_mergesort_total (h : Heap) (p : Option Ptr) (ps : List Ptr)
    (hl : IsList h p ps) :
    (∀ fuel, ps.length + 1 < fuel → ∃ h2 p2, list_mergesort fuel h p = some (h2, p2)) ∧
    (2 ≤ ps.length → ∀ fuel, ps.length / 2 < fuel →
      ∃ h1 fast left right, split_step fuel h p = some (h1, fast) ∧
        IsList h1 p left ∧ IsList h1 fast right ∧ left ≠ [] ∧ right ≠ [] ∧
        left.length < ps.length ∧ right.length < ps.length ∧ left ++ right = ps) ∧
    (∀ (rs : List Ptr) (r : Option Ptr) (fuel : Nat), IsList h r rs →
      (∀ x ∈ ps, x ∉ rs) → ps.length + rs.length < fuel →
      ∃ h2 p2, list_merge fuel h p r = some (h2, p2)) := by
  refine ⟨?_, ?_, ?_⟩
  · intro fuel hfuel
    obtain ⟨h2, p2, _, hrun, _⟩ := list_mergesort_spec fuel ps h p hl hfuel
    exact ⟨h2, p2, hrun⟩
  · intro hlen fuel hfuel
    obtain ⟨h1, fast, hrun, hleft, hright, _, _⟩ := split_step_spec fuel ps p hl hlen hfuel
    have hll : (ps.take ((ps.length + 1) / 2)).length = (ps.length + 1) / 2 := by
      rw [List.length_take]
      omega
    have hlr : (ps.drop ((ps.length + 1) / 2)).length = ps.length / 2 := by
      rw [List.length_drop]
      omega
    refine ⟨h1, fast, _, _, hrun, hleft, hright, ?_, ?_, by omega, by omega,
      List.take_append_drop _ _⟩
    · intro e
      rw [e] at hll
      simp only [List.length_nil] at hll
      omega
    · intro e
      rw [e] at hlr
      simp only [List.length_nil] at hlr
      omega
  · intro rs r fuel hr hdisj hfuel
    obtain ⟨h2, p2, hrun, _⟩ := list_merge_spec fuel ps rs h p r hl hr hdisj hfuel
    exact ⟨h2, p2, hrun⟩

/-- Witness for C17: on the chain of the nodes 1, 2, 3 `list_mergesort` returns,
and the split gives two non-empty halves. -/
theorem list_mergesort_total_witness :
    (∃ h2 p2, list_mergesort 5 abc.1.nodes abc.2.head = some (h2, p2)) ∧
    (∃ h1 fast left right, split_step 2 abc.1.nodes abc.2.head = some (h1, fast) ∧
      IsList h1 abc.2.head left ∧ IsList h1 fast right ∧ left ≠ [] ∧ right ≠ [] ∧
      left ++ right = [1, 2, 3]) :=
  ⟨(list_mergesort_total abc.1.nodes abc.2.head [1, 2, 3] wf_abc.1).1 5 (by decide),
    match (list_mergesort_total abc.1.nodes abc.2.head [1, 2, 3] wf_abc.1).2.1 (by decide) 2
        (by decide) with
    | ⟨h1, fast, left, right, hrun, hleft, hright, h3, h4, _, _, h5⟩ =>
      ⟨h1, fast, left, right, hrun, hleft, hright, h3, h4, h5⟩⟩

/-! ## Reversing twice -/

theorem isList_head_eq {h h2 : Heap} {ps : List Ptr} {p p2 : Option Ptr}
    (hl : IsList h p ps) (hl2 : IsList h2 p2 ps) : p = p2 := by
  cases ps with
  | nil =>
    have h1 : p = none := hl
    have h2 : p2 = none := hl2
    rw [h1, h2]
  | cons a as => rw [hl.1, hl2.1]

theorem isList_heap_eq {h h2 : Heap} (hs : SameValues h2 h) : ∀ {ps : List Ptr}
    {p : Option Ptr}, IsList h p ps → IsList h2 p ps → ∀ x ∈ ps, h2 x = h x
  | [], _, _, _, x, hx => absurd hx (List.not_mem_nil _)
  | a :: as, p, hl, hl2, x, hx => by
    obtain ⟨_, nd, hnd, hrest⟩ := hl
    obtain ⟨_, nd2, hnd2, hrest2⟩ := hl2
    have hnext : nd.next = nd2.next := isList_head_eq hrest hrest2
    have hval : nd2.value = nd.value := by
      have := hs a
      rw [hnd, hnd2] at this
      simpa using this
    have hnode : nd2 = nd := by
      cases nd
      cases nd2
      simp only at hnext hval
      rw [hnext, hval]
    subst hnode
    rcases List.mem_cons.mp hx with rfl | hx
    · rw [hnd, hnd2]
    · exact isList_heap_eq hs hrest hrest2 x hx

theorem isList_head {h : Heap} {ps : List Ptr} {p : Option Ptr} (hl : IsList h p ps) :
    p = ps.head? := by
  cases ps with
  | nil => exact hl
  | cons a as => exact hl.1

/-- C18: on every well-formed queue, and on an absent queue, `q_reverse` applied
twice (given enough fuel) returns exactly the memory and the queue of the start:
the same nodes with the same links, the same `head`, `tail` and count. -/
theorem q_reverse_involution (m : Mem) (q : queue_t) (ps : List Ptr) (fuel : Nat)
    (hwf : WF m q ps) (hfuel : ps.length ≤ fuel) :
    (∃ m1 q1, q_reverse fuel m (some q) = some (m1, some q1) ∧
      q_reverse fuel m1 (some q1) = some (m, some q)) ∧
    q_reverse fuel m none = some (m, none) := by
  refine ⟨?_, rfl⟩
  by_cases hne : ps = []
  · subst hne
    have hh : q.head = none := hwf.1
    exact ⟨m, q, by simp [q_reverse, hh], by simp [q_reverse, hh]⟩
  · obtain ⟨m1, q1, hrun1, hwf1, _, _, hsz1, hvals1, hframe1, hmal1, hfr1⟩ :=
      q_reverse_spec hwf hfuel
    obtain ⟨m2, q2, hrun2, hwf2, hhead2, htail2, hsz2, hvals2, hframe2, hmal2, hfr2⟩ :=
      q_reverse_spec hwf1 (by simpa using hfuel)
    rw [List.reverse_reverse] at hwf2
    have hq : q2 = q := by
      have hh : q2.head = q.head := isList_head_eq hwf2.1 hwf.1
      have ht : q2.tail = q.tail := by
        rw [htail2 (by simpa using hne), List.head?_reverse, hwf.2.2 hne]
      have hs : q2.size = q.size := by rw [hsz2, hsz1]
      cases q
      cases q2
      simp only at hh ht hs
      rw [hh, ht, hs]
    subst hq
    have hnodes : m2.nodes = m.nodes := by
      funext x
      by_cases hx : x ∈ ps
      · exact isList_heap_eq (sameValues_trans hvals2 hvals1) hwf.1 hwf2.1 x hx
      · rw [hframe2 x (by simpa using hx), hframe1 x hx]
    have hm : m2 = m := by
      cases m
      cases m2
      simp only at hnodes hmal1 hmal2 hfr1 hfr2
      rw [hnodes, hmal2, hmal1, hfr2, hfr1]
    subst hm
    exact ⟨m1, q1, hrun1, hrun2⟩

/-- Witness for C18: reversing the three-fruit queue twice gives it back. -/
theorem q_reverse_involution_witness :
    ∃ m1 q1, q_reverse 3 fruits.1 (some fruits.2) = some (m1, some q1) ∧
      q1.head = some 3 ∧ q_reverse 3 m1 (some q1) = some (fruits.1, some fruits.2) := by
  obtain ⟨m1, q1, h1, h2⟩ :=
    (q_reverse_involution fruits.1 fruits.2 [1, 2, 3] 3 wf_fruits (by decide)).1
  have hq : (q_reverse 3 fruits.1 (some fruits.2)).map (fun r => r.2.map (fun q => q.head)) =
      some (some (some 3)) := by decide
  rw [h1] at hq
  simp only [Option.map_some', Option.some.injEq] at hq
  exact ⟨m1, q1, h1, hq, h2⟩

/-- C19: on a non-empty well-formed queue whose head string is `v`, with a buffer
of capacity `n >= 1`, a successful `q_remove_head` sets every byte of the
buffer: the bytes below `min (strlen v) (n-1)` are those of `v` and every byte
from there up to index `n-1` is NUL, whatever the buffer held before. -/
theorem q_remove_head_overwrites (m : Mem) (q : queue_t) (a : Ptr) (ps : List Ptr)
    (hwf : WF m q (a :: ps)) (buf : Buf) (n : Nat) (h1 : 1 ≤ n) (hn : n < SIZE_MOD) :
    ∃ m2 q2 buf2, q_remove_head m (some q) (some buf) n =
        some (m2, some q2, some buf2, true) ∧
      (∀ i : Nat, i < min (valueAt m.nodes a).length (n - 1) →
        (valueAt m.nodes a)[i]? = some (buf2 (i : Int))) ∧
      (∀ i : Nat, min (valueAt m.nodes a).length (n - 1) ≤ i → i ≤ n - 1 →
        buf2 (i : Int) = 0) ∧
      (∀ (other : Buf), ∃ m3 q3 buf3, q_remove_head m (some q) (some other) n =
          some (m3, some q3, some buf3, true) ∧
        ∀ i : Nat, i < n → buf3 (i : Int) = buf2 (i : Int)) := by
  obtain ⟨m2, q2, nd, hnd, hrun, _⟩ := q_remove_head_spec (some buf) n hwf
  have hva : valueAt m.nodes a = nd.value := by simp [valueAt, hnd]
  rw [size_sub_one h1 hn] at hrun
  rw [hva]
  have hbyte : ∀ (b : Buf) (i : Nat), i < n →
      store (strncpy b nd.value (n - 1)) ((n : Int) - 1) 0 (i : Int) =
        if i < min nd.value.length (n - 1) then nd.value.getD i 0 else 0 := by
    intro b i hi
    by_cases hlast : i < n - 1
    · rw [out_buf_low b nd.value i hlast]
      by_cases hlen : i < nd.value.length
      · rw [if_pos (lt_min hlen hlast)]
      · rw [if_neg (fun e => hlen (lt_of_lt_of_le e (min_le_left _ _))),
          List.getD_eq_default _ _ (Nat.le_of_not_lt hlen)]
    · have hcast : (i : Int) = (n : Int) - 1 := by omega
      rw [hcast, out_buf_last, if_neg (fun e => hlast (lt_of_lt_of_le e (min_le_right _ _)))]
  refine ⟨m2, q2, store (strncpy buf nd.value (n - 1)) ((n : Int) - 1) 0, hrun, ?_, ?_, ?_⟩
  · intro i hi
    rw [hbyte buf i (by omega), if_pos hi,
      List.getD_eq_getElem _ _ (lt_of_lt_of_le hi (min_le_left _ _)),
      List.getElem?_eq_getElem (lt_of_lt_of_le hi (min_le_left _ _))]
  · intro i hlo hhi
    rw [hbyte buf i (by omega), if_neg (by omega)]
  · intro other
    obtain ⟨m3, q3, nd3, hnd3, hrun3, _⟩ := q_remove_head_spec (some other) n hwf
    rw [hnd] at hnd3
    cases hnd3
    rw [size_sub_one h1 hn] at hrun3
    refine ⟨m3, q3, store (strncpy other nd.value (n - 1)) ((n : Int) - 1) 0, hrun3, ?_⟩
    intro i hi
    rw [hbyte other i hi, hbyte buf i hi]

/-- Witness for C19: removing "banana" into a 9-byte buffer leaves its six bytes
and three NUL bytes. -/
theorem q_remove_head_overwrites_witness :
    ∃ m2 q2 buf2, q_remove_head fruits.1 (some fruits.2) (some uninit) 9 =
        some (m2, some q2, some buf2, true) ∧
      buf2 5 = 97 ∧ buf2 6 = 0 ∧ buf2 7 = 0 ∧ buf2 8 = 0 ∧ uninit 7 = 170 :=
  match q_remove_head_overwrites fruits.1 fruits.2 1 [2, 3] wf_fruits uninit 9 (by decide)
      (by decide) with
  | ⟨m2, q2, buf2, hrun, hlow, hzero, _⟩ =>
    ⟨m2, q2, buf2, hrun, (Option.some.inj (hlow 5 (by decide))).symm,
      hzero 6 (by decide) (by decide), hzero 7 (by decide) (by decide),
      hzero 8 (by decide) (by decide), rfl⟩

/-- C20: for two disjoint chains that are each in non-decreasing `strcmp` order,
`list_merge` (given enough fuel) returns a chain in non-decreasing `strcmp`
order made of exactly the nodes of the two chains with their strings, and no
other node is touched; `list_merge(NULL, right)` is `right` and
`list_merge(left, NULL)` is `left`, with the heap unchanged. -/
theorem list_merge_sorted_perm (fuel : Nat) (h : Heap) (l r : Option Ptr)
    (ls rs : List Ptr) (hl : IsList h l ls) (hr : IsList h r rs)
    (hdisj : ∀ x ∈ ls, x ∉ rs) (hsl : SortedStr (values h ls)) (hsr : SortedStr (values h rs))
    (hfuel : ls.length + rs.length < fuel) :
    (∃ h2 p ps, list_merge fuel h l r = some (h2, p) ∧ IsList h2 p ps ∧
      SortedStr (values h2 ps) ∧ ps.Perm (ls ++ rs) ∧
      (values h2 ps).Perm (values h ls ++ values h rs) ∧
      SameValues h2 h ∧ (∀ x, x ∉ ls → x ∉ rs → h2 x = h x)) ∧
    (∀ (f : Nat) (right : Option Ptr), list_merge (f + 1) h none right = some (h, right)) ∧
    (∀ (f : Nat) (left : Option Ptr), list_merge (f + 1) h left none = some (h, left)) := by
  refine ⟨?_, fun _ _ => rfl, ?_⟩
  · obtain ⟨h2, p, hrun, hlist, hvals, hframe⟩ := list_merge_spec fuel ls rs h l r hl hr hdisj hfuel
    refine ⟨h2, p, mergeP (valueAt h) ls rs, hrun, hlist, ?_, mergeP_perm _ ls rs, ?_, hvals,
      hframe⟩
    · rw [sameValues_values hvals]
      exact mergeP_sorted (valueAt h) ls rs hsl hsr
    · rw [sameValues_values hvals]
      have := (mergeP_perm (valueAt h) ls rs).map (valueAt h)
      simpa [values] using this
  · intro f left
    cases left <;> rfl

/-- Witness for C20: merging the sorted chains 1, 3 ("a", "c") and 2, 4 ("b", "d")
gives the chain 1, 2, 3, 4. -/
theorem list_merge_sorted_perm_witness :
    (∃ h2 p ps, list_merge 5 mergeHeap (some 1) (some 2) = some (h2, p) ∧ IsList h2 p ps ∧
      SortedStr (values h2 ps) ∧ ps.Perm [1, 3, 2, 4]) ∧
    (list_merge 5 mergeHeap (some 1) (some 2)).bind (fun r => readList 4 r.1 r.2) =
      some [1, 2, 3, 4] :=
  ⟨match (list_merge_sorted_perm 5 mergeHeap (some 1) (some 2) [1, 3] [2, 4]
      ⟨rfl, _, rfl, rfl, _, rfl, rfl⟩ ⟨rfl, _, rfl, rfl, _, rfl, rfl⟩ (by decide)
      (by unfold SortedStr; decide) (by unfold SortedStr; decide) (by decide)).1 with
    | ⟨h2, p, ps, hrun, hlist, hsort, hperm, _⟩ => ⟨h2, p, ps, hrun, hlist, hsort, hperm⟩,
    by decide⟩

end Queue
